import Mathlib

/-!
Shallow embedding of the goboot dependency-injection container core
(package `container`: registry.go, dependency.go, initializer.go,
component.go lifecycle manager, container.go facade).

Conventions of the embedding:
* Go maps are modelled as association lists (`List (String × _)`); where Go
  iterates over a map with unspecified order, the iteration order is a `List`
  parameter of the Lean definition, so theorems quantify over every order.
* Go errors are the inductive `GoErr`; `ContainerError` values keep their
  code and structured payload (the cycle path of `CircularDependencyError`
  is kept as a list rather than as the rendered message string).
* General recursion (the dependency DFS, the recursive initializer) is
  modelled with an explicit fuel parameter; running out of fuel produces the
  artificial `GoErr.outOfFuel` / a `none` result, and theorems either hold
  for every fuel or are stated for sufficiently large fuel.
* Concurrency (goroutines in StartAll/StopAll) is modelled by the ordered
  list of operations the manager performs: launches happen in loop order,
  completion barriers (`WaitGroup.Wait`) are the boundaries of the produced
  event lists, and a recovered panic is an event outcome flag.
-/

namespace GoBoot

/-- Errors of the container package.  `ContainerError` carries a code plus a
message; the structured payload (component name, cycle path) is kept here
instead of the formatted message.  `errorf` stands for a plain `fmt.Errorf`
error, `withCode` for `ErrorWithCode` with the given code.  `outOfFuel` is an
artifact of fuel-based recursion and corresponds to no source error.
`startupPanics` stands for the combined error that `StartAll` folds from its
error channel; it keeps the names of the panicking components. -/
inductive GoErr : Type where
  | circularDependency (cycle : List String)
  | componentNotFound (name : String)
  | componentAlreadyRegistered (name : String)
  | withCode (code : String)
  | errorf (msg : String)
  | startupPanics (names : List String)
  | outOfFuel
deriving DecidableEq, Repr

/-- A registered component: its name plus a payload identifying the concrete
value (two distinct Go component values get distinct payloads). -/
structure Comp : Type where
  name : String
  payload : Nat
deriving DecidableEq, Repr

/-- `defaultComponentRegistry` (registry.go): the `components` map. -/
structure ComponentRegistry : Type where
  components : List (String × Comp)
deriving DecidableEq, Repr

/-- Map lookup in the `components` map. -/
def ComponentRegistry.lookup (r : ComponentRegistry) (name : String) : Option Comp :=
  (r.components.find? (fun p => p.1 = name)).map (fun p => p.2)

/-- `defaultComponentRegistry.Register` (registry.go lines 32-52).  The Go
method mutates the receiver only on success; the pair returned here is
(error, registry after the call). -/
def ComponentRegistry.Register (r : ComponentRegistry) (component : Option Comp) :
    Option GoErr × ComponentRegistry :=
  match component with
  | none => (some (.errorf "cannot register nil component"), r)
  | some comp =>
    if comp.name = "" then
      (some (.errorf "component name cannot be empty"), r)
    else if (r.lookup comp.name).isSome then
      (some (.componentAlreadyRegistered comp.name), r)
    else
      (none, ⟨(comp.name, comp) :: r.components⟩)

/-- `defaultComponentRegistry.Get` (registry.go lines 54-63). -/
def ComponentRegistry.Get (r : ComponentRegistry) (name : String) : Except GoErr Comp :=
  match r.lookup name with
  | some comp => .ok comp
  | none => .error (.componentNotFound name)

/-- `defaultComponentRegistry.Has` (registry.go lines 65-71). -/
def ComponentRegistry.Has (r : ComponentRegistry) (name : String) : Bool :=
  (r.lookup name).isSome

/-- A value stored in the variable registry.  `str` is a Go `string` value;
`stringer` a value implementing `fmt.Stringer` (with the result of its
`String()` method); `other` any other value (with its `fmt.Sprintf`
percent-v rendering). -/
inductive VarValue : Type where
  | str (s : String)
  | stringer (rendered : String)
  | other (rendered : String)
deriving DecidableEq, Repr

/-- The string rendering of a value per `GetString` (registry.go lines
141-149): pass-through for strings, `String()` for Stringers, percent-v
formatting otherwise. -/
def VarValue.render : VarValue → String
  | .str s => s
  | .stringer r => r
  | .other r => r

/-- `defaultVariableRegistry` (registry.go): the `variables` map. -/
structure VariableRegistry : Type where
  vars : List (String × VarValue)
deriving DecidableEq, Repr

/-- Map lookup in the `variables` map (map semantics: the most recent
registration of a name wins, hence the head-first search). -/
def VariableRegistry.lookup (r : VariableRegistry) (name : String) : Option VarValue :=
  (r.vars.find? (fun p => p.1 = name)).map (fun p => p.2)

/-- `defaultVariableRegistry.Register` (registry.go lines 117-123):
`r.variables[name] = value`, always succeeds, overwrites. -/
def VariableRegistry.Register (r : VariableRegistry) (name : String) (value : VarValue) :
    VariableRegistry :=
  ⟨(name, value) :: r.vars⟩

/-- `defaultVariableRegistry.Get` (registry.go lines 125-130): the raw value,
`none` standing for Go nil when the name is absent. -/
def VariableRegistry.Get (r : VariableRegistry) (name : String) : Option VarValue :=
  r.lookup name

/-- `defaultVariableRegistry.GetString` (registry.go lines 132-150). -/
def VariableRegistry.GetString (r : VariableRegistry) (name : String) : String :=
  match r.lookup name with
  | none => ""
  | some v => v.render

/-- Idempotent insertion into a set-valued Go map (`m[k] = true`). -/
def insertName (name : String) (s : List String) : List String :=
  if name ∈ s then s else name :: s

/-- Go reflect types are abstracted: a type is a `Ty` (kept abstract as a
`String` identifier), `ptrTo` is `reflect.PtrTo`, and `assignable t u` is
`t.AssignableTo(u)`.  Both functions are parameters of the lookups below, so
theorems hold for every type structure. -/
abbrev Ty := String

/-- The concrete type of each registered component, for the type-based
lookups: the component map paired with `reflect.TypeOf` of each value. -/
abbrev TypedComps := List (String × Ty)

/-- `accessTrackingContext` (dependency.go lines 17-23): the component being
discovered and the set of component names it has accessed. -/
structure TrackCtx : Type where
  componentName : String
  accessedDeps : List String
deriving DecidableEq, Repr

/-- `accessTrackingContext.HasComponent` (dependency.go lines 140-147):
the existence answer plus the context after the call (the name is recorded
as a dependency only when the component exists). -/
def TrackCtx.HasComponent (reg : ComponentRegistry) (a : TrackCtx) (name : String) :
    TrackCtx × Bool :=
  let exists_ := reg.Has name
  (if exists_ then { a with accessedDeps := insertName name a.accessedDeps } else a, exists_)

/-- `accessTrackingContext.GetComponentByName` (dependency.go lines 108-130).
Self-access fails with a two-element cycle before anything is recorded;
otherwise the name is recorded and a missing component is NOT an error during
discovery (`return nil, nil`), modelled as `.ok none`. -/
def TrackCtx.GetComponentByName (reg : ComponentRegistry) (a : TrackCtx) (name : String) :
    TrackCtx × Except GoErr (Option Comp) :=
  if name = a.componentName then
    (a, .error (.circularDependency [name, name]))
  else
    let tracked := { a with accessedDeps := insertName name a.accessedDeps }
    match reg.Get name with
    | .error _ => (tracked, .ok none)
    | .ok comp => (tracked, .ok (some comp))

/-- Whether a component of concrete type `compType` is an exact type match
for a lookup target of element type `elemType` (dependency.go line 52,
container.go line 99): `compType == elemType || compType == reflect.PtrTo(elemType)`. -/
def exactTypeMatch (ptrTo : Ty → Ty) (compType elemType : Ty) : Bool :=
  compType = elemType || compType = ptrTo elemType

/-- `accessTrackingContext.GetComponent` (dependency.go lines 35-106), the
type-based lookup of the tracking context.  `comps` is the snapshot of the
registry with each component's concrete type, in the (unspecified) map
iteration order; the same snapshot is walked twice, first for exact type
matches, then for assignability.  A match that is the component itself fails
with a two-element cycle.  The returned string is the name of the chosen
component; setting the caller's target pointer is not modelled. -/
def TrackCtx.GetComponent (ptrTo : Ty → Ty) (assignable : Ty → Ty → Bool)
    (comps : TypedComps) (a : TrackCtx) (elemType : Ty) :
    TrackCtx × Except GoErr String :=
  match comps.find? (fun p => exactTypeMatch ptrTo p.2 elemType) with
  | some p =>
    if p.1 = a.componentName then
      (a, .error (.circularDependency [p.1, p.1]))
    else
      ({ a with accessedDeps := insertName p.1 a.accessedDeps }, .ok p.1)
  | none =>
    match comps.find? (fun p => assignable p.2 elemType) with
    | some p =>
      if p.1 = a.componentName then
        (a, .error (.circularDependency [p.1, p.1]))
      else
        ({ a with accessedDeps := insertName p.1 a.accessedDeps }, .ok p.1)
    | none => (a, .error (.withCode "COMPONENT_TYPE_NOT_FOUND"))

/-- `container.GetComponent` (container.go lines 84-126), the type-based
lookup on the container facade: first pass exact type matches, second pass
assignable types, else `COMPONENT_TYPE_NOT_FOUND`.  Returns the name of the
chosen component (the Go method sets the target pointer to its value). -/
def containerGetComponent (ptrTo : Ty → Ty) (assignable : Ty → Ty → Bool)
    (comps : TypedComps) (elemType : Ty) : Except GoErr String :=
  match comps.find? (fun p => exactTypeMatch ptrTo p.2 elemType) with
  | some p => .ok p.1
  | none =>
    match comps.find? (fun p => assignable p.2 elemType) with
    | some p => .ok p.1
    | none => .error (.withCode "COMPONENT_TYPE_NOT_FOUND")

/-- One lookup a component's initializer performs against its context during
the discovery pass.  A component's `Init` is modelled by the list of lookups
it performs; the lookup results are returned to the component's own code,
whose errors the discovery pass ignores (`_ = comp.Init(tracker)`,
dependency.go line 189), so only the tracking side effects matter here. -/
inductive Access : Type where
  | byName (name : String)
  | byType (elemType : Ty)
  | hasComp (name : String)
deriving DecidableEq, Repr

/-- Running a component's initializer against the tracking context
(dependency.go line 189): each lookup updates the tracking context; results
and errors returned to the initializer are discarded. -/
def runInitTracked (ptrTo : Ty → Ty) (assignable : Ty → Ty → Bool)
    (reg : ComponentRegistry) (typed : TypedComps)
    (actions : List Access) (a : TrackCtx) : TrackCtx :=
  actions.foldl
    (fun ctx act =>
      match act with
      | .byName n => (ctx.GetComponentByName reg n).1
      | .byType t => (TrackCtx.GetComponent ptrTo assignable typed ctx t).1
      | .hasComp n => (ctx.HasComponent reg n).1)
    a

/-- `defaultDependencyResolver.discoverComponentDependencies` (dependency.go
lines 176-201): look the component up in the registry, run its `Init` against
a fresh tracking context, ignore the initializer's outcome, and return the
accessed-dependency set.  `inits` gives each component's initializer
behaviour. -/
def discoverComponentDeps (ptrTo : Ty → Ty) (assignable : Ty → Ty → Bool)
    (reg : ComponentRegistry) (typed : TypedComps)
    (inits : String → List Access) (name : String) : Except GoErr (List String) :=
  match reg.Get name with
  | .error e => .error e
  | .ok _ =>
    .ok (runInitTracked ptrTo assignable reg typed (inits name) ⟨name, []⟩).accessedDeps

/-- The resolver's accumulated `dependencies` map (dependency.go line 161):
component name to its discovered dependency set. -/
abbrev DepMap := List (String × List String)

/-- Lookup in the `dependencies` map; an absent key reads as the empty set
(ranging over a nil Go map runs zero iterations). -/
def depsOf (g : DepMap) (name : String) : List String :=
  match g.find? (fun p => p.1 = name) with
  | some p => p.2
  | none => []

mutual

/-- `defaultDependencyResolver.detectCycle` (dependency.go lines 203-222).
The `visited` map is shared by reference across the recursion, so it is
threaded in and out; `path` is passed by value.  The result is the cycle
path when a path from `target` back to `source` is found.  `fuel` bounds the
recursion depth (the Go function needs none because the visited set is drawn
from a finite map). -/
def detectCycle (g : DepMap) : Nat → String → String → List String → List String →
    Option (List String) × List String
  | 0, _, _, visited, _ => (none, visited)
  | fuel + 1, source, target, visited, path =>
    if source = target then
      (some (path ++ [target]), visited)
    else if target ∈ visited then
      (none, visited)
    else
      detectLoop g fuel source (depsOf g target) (target :: visited) (path ++ [target])

/-- The `for dep := range r.dependencies[target]` loop inside `detectCycle`:
recurse into each dependency, short-circuiting on the first found cycle and
threading the shared visited set. -/
def detectLoop (g : DepMap) : Nat → String → List String → List String → List String →
    Option (List String) × List String
  | _, _, [], visited, _ => (none, visited)
  | fuel, source, d :: ds, visited, path =>
    match detectCycle g fuel source d visited path with
    | (some p, visited1) => (some p, visited1)
    | (none, visited1) => detectLoop g fuel source ds visited1 path

end

/-- The cycle check DiscoverDependencies runs after storing one component's
edge set (dependency.go lines 239-250): for each discovered dependency other
than the component itself, search for a path back to the component.  `fuel`
is the DFS fuel. -/
def checkDeps (g : DepMap) (fuel : Nat) (name : String) : List String → Option GoErr
  | [] => none
  | dep :: rest =>
    if dep = name then
      checkDeps g fuel name rest
    else
      match (detectCycle g fuel name dep [] [name]).1 with
      | some cycle => some (.circularDependency cycle)
      | none => checkDeps g fuel name rest

/-- Every vertex occurring in the stored dependency map: its keys and all
stored dependency names (with multiplicity; only membership matters). -/
def vertsOf (g : DepMap) : List String :=
  g.map (fun p => p.1) ++ (g.map (fun p => p.2)).flatten

/-- Fuel that provably suffices for the DFS: one more than the number of
vertex occurrences in the stored map (every visited vertex is a key or a
stored dependency). -/
def dfsFuel (g : DepMap) : Nat :=
  (vertsOf g).length + 1

/-- `defaultDependencyResolver.DiscoverDependencies` (dependency.go lines
224-254).  `discover` produces one component's discovered edge set (either
`discoverComponentDeps`, or directly the edge sets when a theorem quantifies
over them); `order` is the registry map iteration order; `g` the accumulated
`dependencies` map.  After storing each edge set the incremental cycle check
runs. -/
def discoverAll (discover : String → Except GoErr (List String)) :
    List String → DepMap → Except GoErr DepMap
  | [], g => .ok g
  | name :: rest, g =>
    match discover name with
    | .error e => .error e
    | .ok deps =>
      let g1 := g ++ [(name, deps)]
      match checkDeps g1 (dfsFuel g1) name deps with
      | some e => .error e
      | none => discoverAll discover rest g1

/-- `defaultDependencyResolver.ValidateDependencies` (dependency.go lines
256-265): the first recorded dependency with no registered component is a
`ComponentNotFound` failure. -/
def validateDeps (hasComp : String → Bool) : DepMap → Option GoErr
  | [] => none
  | (_, deps) :: rest =>
    match deps.find? (fun d => ! hasComp d) with
    | some d => some (.componentNotFound d)
    | none => validateDeps hasComp rest

/-- `defaultComponentInitializer` mutable state (initializer.go lines 19-20):
the `initialized` set and the recorded `initOrder`. -/
structure InitState : Type where
  initialized : List String
  initOrder : List String
deriving DecidableEq, Repr

mutual

/-- `defaultComponentInitializer.initComponent` (initializer.go lines 37-89).
`reg` is the set of registered component names (`registry.Get` succeeds
exactly on them; the component's real `Init` returns nothing the initializer
inspects, so the component value itself is not needed), `getDeps` is
`dependencies.GetDependencies` with a nil result read as the empty set.
`visited` is the shared recursion map, threaded in and out; `path` the
by-value cycle-reporting path.  Returns (visited, state, error): the Go
method mutates `i.initialized` and `i.initOrder`, which persist even when an
error aborts the recursion. -/
def initComponent (reg : List String) (getDeps : String → List String) :
    Nat → String → List String → List String → InitState →
    List String × InitState × Option GoErr
  | 0, _, visited, _, st => (visited, st, some .outOfFuel)
  | fuel + 1, name, visited, path, st =>
    if name ∈ st.initialized then
      (visited, st, none)
    else if name ∈ visited then
      (visited, st, some (.circularDependency (path ++ [name])))
    else if name ∉ reg then
      (visited, st, some (.componentNotFound name))
    else
      match initDepsLoop reg getDeps fuel name (getDeps name)
          (name :: visited) (path ++ [name]) st with
      | (visited1, st1, some e) => (visited1, st1, some e)
      | (visited1, st1, none) =>
        (visited1.erase name,
         ⟨name :: st1.initialized, st1.initOrder ++ [name]⟩,
         none)

/-- The `for depName := range deps` loop of `initComponent` (initializer.go
lines 59-67): initialize each discovered dependency first, skipping
self-edges, aborting on the first error. -/
def initDepsLoop (reg : List String) (getDeps : String → List String) :
    Nat → String → List String → List String → List String → InitState →
    List String × InitState × Option GoErr
  | _, _, [], visited, _, st => (visited, st, none)
  | fuel, name, d :: ds, visited, path, st =>
    if d = name then
      initDepsLoop reg getDeps fuel name ds visited path st
    else
      match initComponent reg getDeps fuel d visited path st with
      | (visited1, st1, some e) => (visited1, st1, some e)
      | (visited1, st1, none) => initDepsLoop reg getDeps fuel name ds visited1 path st1

end

/-- `defaultComponentInitializer.InitializeAll` (initializer.go lines
91-104): walk the registry map (iteration order = the order of `reg`) and
initialize every not-yet-initialized component with a fresh visited map and
empty path, aborting on the first error. -/
def initAll (reg : List String) (getDeps : String → List String) (fuel : Nat) :
    List String → InitState → InitState × Option GoErr
  | [], st => (st, none)
  | name :: rest, st =>
    if name ∈ st.initialized then
      initAll reg getDeps fuel rest st
    else
      match initComponent reg getDeps fuel name [] [] st with
      | (_, st1, none) => initAll reg getDeps fuel rest st1
      | (_, st1, some e) => (st1, some e)

/-- One run of `InitializeAll` from the empty state over the whole
registry. -/
def runInitAll (reg : List String) (getDeps : String → List String) (fuel : Nat) :
    InitState × Option GoErr :=
  initAll reg getDeps fuel reg ⟨[], []⟩

/-- The startup sequencing of `container.New` after the discovery pass
(container.go lines 222-238): `ValidateDependencies` runs before the
initializer is even constructed, so a validation failure aborts with no
component initialized.  Returns (names actually initialized in order,
error). -/
def startupAfterDiscovery (hasComp : String → Bool) (g : DepMap)
    (reg : List String) (getDeps : String → List String) (fuel : Nat) :
    List String × Option GoErr :=
  match validateDeps hasComp g with
  | some e => ([], some e)
  | none =>
    match runInitAll reg getDeps fuel with
    | (st, e) => (st.initOrder, e)

/-- `defaultLifecycleManager.StartAll` (component.go lines 48-123) launch
loop.  Walks `initOrder`; a failing `registry.Get` returns immediately
(goroutines already launched keep running; no further component is started);
every lifecycle component has its `Start` invoked in its own goroutine with
panics recovered into the error channel.  Returns (components whose Start
was invoked, error-channel contents as the names of panicking components,
early registry error).  The error channel is drained after the WaitGroup
barrier; its real ordering is scheduler-dependent, and only the membership
of the collected set is specified, so the model lists failures in launch
order. -/
def startAllRun (hasComp isLifecycle panics : String → Bool) :
    List String → List String × List String × Option GoErr
  | [] => ([], [], none)
  | name :: rest =>
    if hasComp name then
      if isLifecycle name then
        match startAllRun hasComp isLifecycle panics rest with
        | (attempted, failures, e) =>
          (name :: attempted,
           (if panics name then name :: failures else failures),
           e)
      else
        startAllRun hasComp isLifecycle panics rest
    else
      ([], [], some (.componentNotFound name))

/-- The value `StartAll` returns (component.go lines 109-122): the early
registry error if the loop aborted, otherwise nil when the error channel is
empty and the folded combined error (represented by the list of panicking
components) when it is not. -/
def startAllResult (hasComp isLifecycle panics : String → Bool)
    (initOrder : List String) : Option GoErr :=
  match startAllRun hasComp isLifecycle panics initOrder with
  | (_, _, some e) => some e
  | (_, failures, none) =>
    if failures = [] then none else some (.startupPanics failures)

/-- Descending index range `[hi, hi-1, ..., lo]` (empty when `hi < lo`):
the inner `for i := startIdx; i >= endIdx; i--` loop of `StopAll`. -/
def descRange (hi lo : Nat) : List Nat :=
  (List.range' lo (hi + 1 - lo)).reverse

/-- The indices of shutdown batch `b` in `StopAll` (component.go lines
198-209): `startIdx = n - b*5 - 1` down to `endIdx = max(n - (b+1)*5, 0)`,
skipping indices outside the order (`i < 0 || i >= totalComponents`; the
lower guard is vacuous over `Nat`, where the Go `int` arithmetic never goes
negative for the batch numbers that occur). -/
def stopBatchIdx (n b : Nat) : List Nat :=
  (descRange (n - 5 * b - 1) (n - 5 * (b + 1))).filter (fun i => i < n)

/-- The components of shutdown batch `b`, in the order their `Stop`
goroutines are launched: the batch indices resolved through `initOrder`,
dropping names whose registry lookup fails and components without the
lifecycle capability (component.go lines 211-220). -/
def stopBatchNames (initOrder : List String) (hasComp isLifecycle : String → Bool)
    (b : Nat) : List String :=
  ((stopBatchIdx initOrder.length b).filterMap (fun i => initOrder.get? i)).filter
    (fun name => hasComp name && isLifecycle name)

/-- `defaultLifecycleManager.StopAll` (component.go lines 186-254) as its
batch schedule: `batches = ceil(n/5)` groups processed in order, with the
`batchWg.Wait()` barrier between consecutive groups (every `Stop` of a batch
has returned, panics included, before the next batch starts). -/
def stopSchedule (initOrder : List String) (hasComp isLifecycle : String → Bool) :
    List (List String) :=
  (List.range ((initOrder.length + 5 - 1) / 5)).map
    (stopBatchNames initOrder hasComp isLifecycle)

/-- The `Stop` invocations `StopAll` performs, in launch order with the
batch barriers flattened, each paired with whether that component's `Stop`
panicked (the deferred `recover` turns the panic into a log entry and the
goroutine still completes). -/
def stopEvents (initOrder : List String) (hasComp isLifecycle panics : String → Bool) :
    List (String × Bool) :=
  (stopSchedule initOrder hasComp isLifecycle).flatten.map (fun name => (name, panics name))

/-- A list cut into consecutive chunks of five: the reference shape that the
shutdown batch index arithmetic is proved to implement. -/
def chunks5 {α : Type} : List α → List (List α)
  | [] => []
  | x :: xs => ((x :: xs).take 5) :: chunks5 ((x :: xs).drop 5)
termination_by l => l.length
decreasing_by simp; omega

/-- The initializer invariant maintained by `initComponent`: the recorded
order has no duplicates, mirrors the `initialized` set, contains only
registered names, and is dependency-respecting — every discovered dependency
of a recorded component, other than the component itself, sits strictly
earlier in the order. -/
def InitInv (reg : List String) (getDeps : String → List String) (st : InitState) : Prop :=
  st.initOrder.Nodup ∧
  (∀ n, n ∈ st.initialized ↔ n ∈ st.initOrder) ∧
  (∀ n ∈ st.initOrder, n ∈ reg) ∧
  (∀ x ∈ st.initOrder, ∀ d ∈ getDeps x, d ≠ x →
    st.initOrder.indexOf d < st.initOrder.indexOf x)

/-- Postcondition of a successful `initComponent` call at a given fuel: the
invariant is preserved, the shared visited map is restored, the component is
initialized, the order only grows at the end, and nothing on the active
recursion path was newly initialized. -/
def InitCompPost (reg : List String) (getDeps : String → List String) (fuel : Nat) : Prop :=
  ∀ name visited path st visited1 st1,
    InitInv reg getDeps st →
    initComponent reg getDeps fuel name visited path st = (visited1, st1, none) →
    InitInv reg getDeps st1 ∧ visited1 = visited ∧ name ∈ st1.initialized ∧
    (∃ t, st1.initOrder = st.initOrder ++ t) ∧
    (∀ n ∈ st1.initialized, n ∈ st.initialized ∨ n ∉ visited)

/-- Postcondition of a successful dependency loop at a given fuel. -/
def InitLoopPost (reg : List String) (getDeps : String → List String) (fuel : Nat) : Prop :=
  ∀ ds name visited path st visited1 st1,
    InitInv reg getDeps st →
    initDepsLoop reg getDeps fuel name ds visited path st = (visited1, st1, none) →
    InitInv reg getDeps st1 ∧ visited1 = visited ∧
    (∀ d ∈ ds, d ≠ name → d ∈ st1.initialized) ∧
    (∃ t, st1.initOrder = st.initOrder ++ t) ∧
    (∀ n ∈ st1.initialized, n ∈ st.initialized ∨ n ∉ visited)

theorem mem_insertName (n m : String) (s : List String) :
    n ∈ insertName m s ↔ n = m ∨ n ∈ s := by
  unfold insertName
  by_cases h : m ∈ s
  · simp only [if_pos h]
    constructor
    · exact Or.inr
    · rintro (rfl | hn)
      · exact h
      · exact hn
  · simp only [if_neg h, List.mem_cons]

/-- C7: if a component named `n` is already registered, registering another
component with name `n` fails with `ComponentAlreadyRegistered` and leaves
the registry unchanged, so `Get n` still returns the original component;
registering a nil component, or one with an empty name, also fails without
modifying the registry.  (`n` is nonempty, the invariant of every name that
was ever accepted by `Register`.) -/
theorem register_duplicate_rejected (r : ComponentRegistry) (n : String) (c c2 : Comp)
    (hreg : r.lookup n = some c) (hn2 : c2.name = n) (hne : n ≠ "") :
    r.Register (some c2) = (some (.componentAlreadyRegistered n), r) ∧
    ((r.Register (some c2)).2).Get n = .ok c ∧
    r.Register none = (some (.errorf "cannot register nil component"), r) ∧
    (∀ c3 : Comp, c3.name = "" →
      r.Register (some c3) = (some (.errorf "component name cannot be empty"), r)) := by
  subst hn2
  refine ⟨?_, ?_, rfl, ?_⟩
  · simp only [ComponentRegistry.Register]
    rw [if_neg hne, hreg]
    simp
  · simp only [ComponentRegistry.Register]
    rw [if_neg hne, hreg]
    simp [ComponentRegistry.Get, hreg]
  · intro c3 h3
    simp only [ComponentRegistry.Register]
    rw [if_pos h3]

/-- Witness for C7 at a concrete registry. -/
theorem register_duplicate_rejected_witness :
    (ComponentRegistry.Register ⟨[("a", ⟨"a", 0⟩)]⟩ (some ⟨"a", 1⟩) =
      (some (.componentAlreadyRegistered "a"), ⟨[("a", ⟨"a", 0⟩)]⟩) ∧
      ((ComponentRegistry.Register ⟨[("a", ⟨"a", 0⟩)]⟩ (some ⟨"a", 1⟩)).2).Get "a" =
        .ok ⟨"a", 0⟩ ∧
      ComponentRegistry.Register ⟨[("a", ⟨"a", 0⟩)]⟩ none =
        (some (.errorf "cannot register nil component"), ⟨[("a", ⟨"a", 0⟩)]⟩) ∧
      (∀ c3 : Comp, c3.name = "" →
        ComponentRegistry.Register ⟨[("a", ⟨"a", 0⟩)]⟩ (some c3) =
          (some (.errorf "component name cannot be empty"), ⟨[("a", ⟨"a", 0⟩)]⟩))) :=
  register_duplicate_rejected ⟨[("a", ⟨"a", 0⟩)]⟩ "a" ⟨"a", 0⟩ ⟨"a", 1⟩
    (by decide) (by decide) (by decide)

/-- C9: `Register(name, value)` on the variable registry always succeeds
(it is total) and overwrites: after registering, `Get` returns the value
just stored, re-registering under the same name makes `Get` return the
newer value, and `GetString` renders the latest value (pass-through for
strings, a string rendering otherwise). -/
theorem variable_register_overwrites (r : VariableRegistry) (n : String) (v v2 : VarValue) :
    (r.Register n v).Get n = some v ∧
    ((r.Register n v).Register n v2).Get n = some v2 ∧
    (r.Register n v).GetString n = v.render ∧
    ((r.Register n v).Register n v2).GetString n = v2.render ∧
    (∀ s : String, VarValue.render (.str s) = s) := by
  refine ⟨?_, ?_, ?_, ?_, fun _ => rfl⟩ <;>
    simp [VariableRegistry.Register, VariableRegistry.Get, VariableRegistry.GetString,
      VariableRegistry.lookup]

/-- C10: a `HasComponent(n)` call on a tracking context records `n` as a
dependency exactly when a component named `n` is registered at call time:
afterwards `n` is in the accessed set iff it was already there or the
registry has it, an existence check of an unregistered name leaves the
context entirely unchanged, and the call answers the registry's existence
bit. -/
theorem hasComponent_tracks_iff_registered (reg : ComponentRegistry) (a : TrackCtx)
    (n : String) :
    (n ∈ ((a.HasComponent reg n).1).accessedDeps ↔
      reg.Has n = true ∨ n ∈ a.accessedDeps) ∧
    (reg.Has n = false → (a.HasComponent reg n).1 = a) ∧
    (a.HasComponent reg n).2 = reg.Has n := by
  unfold TrackCtx.HasComponent
  by_cases h : reg.Has n
  · simp [h, mem_insertName]
  · simp [h]

/-- C8: the container's type-based lookup prefers exact matches: whenever
some registered component's concrete type equals the requested type or is a
pointer to it, the lookup returns such a component (never one that is merely
assignable); and when no component matches exactly nor is assignable, it
fails with the `COMPONENT_TYPE_NOT_FOUND` error code. -/
theorem getComponent_prefers_exact (ptrTo : Ty → Ty) (assignable : Ty → Ty → Bool)
    (comps : TypedComps) (elemType : Ty) :
    ((∃ p ∈ comps, exactTypeMatch ptrTo p.2 elemType = true) →
      ∃ p ∈ comps, exactTypeMatch ptrTo p.2 elemType = true ∧
        containerGetComponent ptrTo assignable comps elemType = .ok p.1) ∧
    ((∀ p ∈ comps, exactTypeMatch ptrTo p.2 elemType = false ∧
        assignable p.2 elemType = false) →
      containerGetComponent ptrTo assignable comps elemType =
        .error (.withCode "COMPONENT_TYPE_NOT_FOUND")) := by
  constructor
  · rintro ⟨p, hp, hm⟩
    have hsome : (comps.find? (fun q => exactTypeMatch ptrTo q.2 elemType)).isSome := by
      rw [List.find?_isSome]
      exact ⟨p, hp, hm⟩
    obtain ⟨q, hq⟩ := Option.isSome_iff_exists.mp hsome
    have hq2 := List.find?_some hq
    refine ⟨q, List.mem_of_find?_eq_some hq, hq2, ?_⟩
    unfold containerGetComponent
    rw [hq]
  · intro hnone
    have h1 : comps.find? (fun q => exactTypeMatch ptrTo q.2 elemType) = none := by
      rw [List.find?_eq_none]
      intro q hq
      simp [(hnone q hq).1]
    have h2 : comps.find? (fun q => assignable q.2 elemType) = none := by
      rw [List.find?_eq_none]
      intro q hq
      simp [(hnone q hq).2]
    unfold containerGetComponent
    rw [h1, h2]

/-- Witness for C8: the pointer component of the requested type wins over a
component that is merely assignable even though the assignable one comes
first in iteration order, and an unmatchable request fails with the
`COMPONENT_TYPE_NOT_FOUND` code. -/
theorem getComponent_prefers_exact_witness :
    (∃ p ∈ [("ifaceImpl", "TOther"), ("svc", "ptr TSvc")],
      exactTypeMatch (fun t => "ptr " ++ t) p.2 "TSvc" = true ∧
      containerGetComponent (fun t => "ptr " ++ t) (fun _ _ => true)
        [("ifaceImpl", "TOther"), ("svc", "ptr TSvc")] "TSvc" = .ok p.1) ∧
    containerGetComponent (fun t => "ptr " ++ t) (fun _ _ => false)
      [("ifaceImpl", "TOther"), ("svc", "ptr TSvc")] "TMissing" =
      .error (.withCode "COMPONENT_TYPE_NOT_FOUND") := by
  constructor
  · exact (getComponent_prefers_exact (fun t => "ptr " ++ t) (fun _ _ => true)
      [("ifaceImpl", "TOther"), ("svc", "ptr TSvc")] "TSvc").1
      ⟨("svc", "ptr TSvc"), by decide, by decide⟩
  · exact (getComponent_prefers_exact (fun t => "ptr " ++ t) (fun _ _ => false)
      [("ifaceImpl", "TOther"), ("svc", "ptr TSvc")] "TMissing").2
      (by decide)

/-- C5: when every name of the recorded order is registered, `StartAll`
attempts the `Start` of every lifecycle component regardless of which
components panic; each panic is recovered into an error-channel entry
instead of crashing; and after the barrier the aggregated error contains
exactly the panicking lifecycle components — every panicking one and no
normally-returning one — with a nil result exactly when none panicked. -/
theorem startAll_attempts_all_and_aggregates (hasComp isLifecycle panics : String → Bool)
    (initOrder : List String) (hall : ∀ n ∈ initOrder, hasComp n = true) :
    (startAllRun hasComp isLifecycle panics initOrder).1 = initOrder.filter isLifecycle ∧
    (startAllRun hasComp isLifecycle panics initOrder).2.1 =
      initOrder.filter (fun n => isLifecycle n && panics n) ∧
    (startAllRun hasComp isLifecycle panics initOrder).2.2 = none ∧
    (∀ n, n ∈ (startAllRun hasComp isLifecycle panics initOrder).2.1 ↔
      n ∈ initOrder ∧ isLifecycle n = true ∧ panics n = true) ∧
    (startAllResult hasComp isLifecycle panics initOrder = none ↔
      initOrder.filter (fun n => isLifecycle n && panics n) = []) ∧
    (initOrder.filter (fun n => isLifecycle n && panics n) ≠ [] →
      startAllResult hasComp isLifecycle panics initOrder =
        some (.startupPanics (initOrder.filter (fun n => isLifecycle n && panics n)))) := by
  have mainAll : ∀ l : List String, (∀ n ∈ l, hasComp n = true) →
      startAllRun hasComp isLifecycle panics l =
        (l.filter isLifecycle, l.filter (fun n => isLifecycle n && panics n), none) := by
    intro l
    induction l with
    | nil => intro _; rfl
    | cons name rest ih =>
      intro hl
      have hname : hasComp name = true := hl name (List.mem_cons_self name rest)
      have hrest : ∀ n ∈ rest, hasComp n = true :=
        fun n hn => hl n (List.mem_cons_of_mem name hn)
      unfold startAllRun
      rw [if_pos hname, ih hrest]
      by_cases hlc : isLifecycle name <;> by_cases hp : panics name <;>
        simp [hlc, hp, List.filter_cons]
  have main := mainAll initOrder hall
  refine ⟨by rw [main], by rw [main], by rw [main], ?_, ?_, ?_⟩
  · intro n
    rw [main]
    simp [List.mem_filter]
  · unfold startAllResult
    rw [main]
    by_cases h : initOrder.filter (fun n => isLifecycle n && panics n) = [] <;> simp [h]
  · intro h
    unfold startAllResult
    rw [main]
    simp [h]

/-- Witness for C5: four components, one of which is not a lifecycle
component and one of which panics during `Start`. -/
theorem startAll_attempts_all_and_aggregates_witness :
    (startAllRun (fun _ => true) (fun n => n ≠ "b") (fun n => n = "c")
        ["a", "b", "c", "d"]).1 = ["a", "c", "d"] ∧
    startAllResult (fun _ => true) (fun n => n ≠ "b") (fun n => n = "c")
      ["a", "b", "c", "d"] = some (.startupPanics ["c"]) := by
  have h := startAll_attempts_all_and_aggregates (fun _ => true) (fun n => n ≠ "b")
    (fun n => n = "c") ["a", "b", "c", "d"] (fun n _ => rfl)
  refine ⟨?_, ?_⟩
  · rw [h.1]
    decide
  · have := h.2.2.2.2.2
    rw [show (["a", "b", "c", "d"].filter fun n => (decide (n ≠ "b")) && decide (n = "c")) =
      ["c"] from by decide] at this
    exact this (by decide)

theorem chunks5_eq_ranges {α : Type} :
    ∀ (n : Nat) (l : List α), l.length ≤ n →
      chunks5 l = (List.range ((l.length + 4) / 5)).map (fun b => (l.drop (5 * b)).take 5) := by
  intro n
  induction n with
  | zero =>
    intro l hl
    have : l = [] := List.eq_nil_of_length_eq_zero (Nat.le_zero.mp hl)
    subst this
    rw [chunks5]
    simp
  | succ n ih =>
    intro l hl
    match l with
    | [] => rw [chunks5]; simp
    | x :: xs =>
      rw [chunks5]
      have hlen : (List.drop 5 (x :: xs)).length ≤ n := by
        simp only [List.length_drop, List.length_cons] at *
        omega
      rw [ih _ hlen]
      have harith : ((x :: xs).length + 4) / 5 = ((List.drop 5 (x :: xs)).length + 4) / 5 + 1 := by
        simp only [List.length_drop, List.length_cons]
        omega
      rw [harith, List.range_succ_eq_map, List.map_cons, List.map_map]
      refine congrArg₂ _ (by simp) ?_
      refine List.map_congr_left ?_
      intro b _
      simp only [Function.comp_apply, List.drop_drop]
      have : 5 * Nat.succ b = 5 + 5 * b := by omega
      rw [this]

theorem chunks5_flatten {α : Type} : ∀ (n : Nat) (l : List α), l.length ≤ n →
    (chunks5 l).flatten = l := by
  intro n
  induction n with
  | zero =>
    intro l hl
    have : l = [] := List.eq_nil_of_length_eq_zero (Nat.le_zero.mp hl)
    subst this
    rw [chunks5]
    rfl
  | succ n ih =>
    intro l hl
    match l with
    | [] => rw [chunks5]; rfl
    | x :: xs =>
      rw [chunks5, List.flatten_cons]
      have hlen : (List.drop 5 (x :: xs)).length ≤ n := by
        simp only [List.length_drop, List.length_cons] at *
        omega
      rw [ih _ hlen, List.take_append_drop]

theorem chunks5_length_le {α : Type} (l : List α) (c : List α) (hc : c ∈ chunks5 l) :
    c.length ≤ 5 := by
  rw [chunks5_eq_ranges l.length l (le_refl _)] at hc
  obtain ⟨b, _, rfl⟩ := List.mem_map.mp hc
  calc ((l.drop (5 * b)).take 5).length ≤ 5 := by
        rw [List.length_take]
        exact min_le_left _ _

theorem filterMap_get_range' {α : Type} :
    ∀ (m a : Nat) (l : List α),
      (List.range' a m).filterMap (fun i => l.get? i) = (l.drop a).take m := by
  intro m
  induction m with
  | zero => intro a l; simp
  | succ m ih =>
    intro a l
    rw [List.range'_succ a m 1, List.filterMap_cons]
    by_cases h : a < l.length
    · rw [show l.get? a = some (l.get ⟨a, h⟩) from List.get?_eq_get h]
      rw [ih (a + 1) l]
      rw [List.drop_eq_getElem_cons h, List.take_succ_cons]
      rfl
    · have hnone : l.get? a = none := List.get?_eq_none.mpr (Nat.le_of_not_lt h)
      rw [hnone, ih (a + 1) l]
      have h1 : l.drop a = [] := List.drop_eq_nil_of_le (Nat.le_of_not_lt h)
      have h2 : l.drop (a + 1) = [] := List.drop_eq_nil_of_le (by omega)
      rw [h1, h2]
      simp

theorem range'_reverse_as_map :
    ∀ (m K c : Nat), c + m ≤ K + 1 →
      (List.range' (K + 1 - (c + m)) m).reverse = (List.range' c m).map (fun j => K - j) := by
  intro m
  induction m with
  | zero => intro K c _; rfl
  | succ m ih =>
    intro K c hcm
    have hconcat := @List.range'_concat 1 (K + 1 - (c + (m + 1))) m
    simp only [one_mul] at hconcat
    rw [hconcat, List.reverse_append, List.reverse_singleton, List.singleton_append]
    rw [List.range'_succ c m 1, List.map_cons]
    refine congrArg₂ _ ?_ ?_
    · omega
    · have : K + 1 - (c + (m + 1)) = K + 1 - ((c + 1) + m) := by omega
      rw [this]
      exact ih K (c + 1) (by omega)

theorem stopBatchIdx_as_map (n b : Nat) (hb : 5 * b < n) :
    stopBatchIdx n b =
      (List.range' (5 * b) (min 5 (n - 5 * b))).map (fun j => n - 1 - j) := by
  unfold stopBatchIdx descRange
  have h1 : n - 5 * b - 1 + 1 - (n - 5 * (b + 1)) = min 5 (n - 5 * b) := by omega
  rw [h1]
  have h2 : n - 5 * (b + 1) = (n - 1) + 1 - (5 * b + min 5 (n - 5 * b)) := by omega
  rw [h2, range'_reverse_as_map (min 5 (n - 5 * b)) (n - 1) (5 * b) (by omega)]
  refine List.filter_eq_self.mpr ?_
  intro j hj
  obtain ⟨i, hi, rfl⟩ := List.mem_map.mp hj
  simp only [decide_eq_true_eq]
  omega

theorem stopBatchNames_as_chunk (initOrder : List String) (hasComp isLifecycle : String → Bool)
    (b : Nat) (hb : 5 * b < initOrder.length) :
    stopBatchNames initOrder hasComp isLifecycle b =
      ((initOrder.reverse.drop (5 * b)).take 5).filter
        (fun name => hasComp name && isLifecycle name) := by
  unfold stopBatchNames
  rw [stopBatchIdx_as_map initOrder.length b hb]
  rw [List.filterMap_map]
  have hcong : (List.range' (5 * b) (min 5 (initOrder.length - 5 * b))).filterMap
      ((fun i => initOrder.get? i) ∘ fun j => initOrder.length - 1 - j) =
      (List.range' (5 * b) (min 5 (initOrder.length - 5 * b))).filterMap
        (fun i => initOrder.reverse.get? i) := by
    refine List.filterMap_congr ?_
    intro j hj
    have hjlt : j < initOrder.length := by
      have := List.mem_range'_1.mp hj
      omega
    have hrev : initOrder.reverse[j]? = initOrder[initOrder.length - 1 - j]? :=
      List.getElem?_reverse (by simpa using hjlt)
    simp only [Function.comp_apply, List.get?_eq_getElem?]
    exact hrev.symm
  rw [hcong, filterMap_get_range']
  have htake : (initOrder.reverse.drop (5 * b)).take (min 5 (initOrder.length - 5 * b)) =
      (initOrder.reverse.drop (5 * b)).take 5 := by
    rw [List.take_eq_take]
    simp only [List.length_drop, List.length_reverse]
    omega
  rw [htake]

/-- C4: `StopAll` processes the recorded order in exact reverse, partitioned
into the consecutive width-5 chunks of the reversed order (each batch holds
at most five components); the batch sequence is separated by completion
barriers, so every component of a later-initialized batch has returned from
`Stop` (panics recovered) before any earlier batch starts; flattening the
schedule gives exactly the reversed order restricted to lifecycle
components; and the invocation sequence is the same for every pattern of
panicking components, so one panicking `Stop` never suppresses another
component's `Stop`. -/
theorem stopAll_reverse_batches (initOrder : List String)
    (hasComp isLifecycle : String → Bool) :
    stopSchedule initOrder hasComp isLifecycle =
      (chunks5 initOrder.reverse).map
        (List.filter (fun name => hasComp name && isLifecycle name)) ∧
    (∀ batch ∈ stopSchedule initOrder hasComp isLifecycle, batch.length ≤ 5) ∧
    (stopSchedule initOrder hasComp isLifecycle).flatten =
      initOrder.reverse.filter (fun name => hasComp name && isLifecycle name) ∧
    (∀ panics : String → Bool,
      (stopEvents initOrder hasComp isLifecycle panics).map Prod.fst =
        initOrder.reverse.filter (fun name => hasComp name && isLifecycle name)) := by
  have hmain : stopSchedule initOrder hasComp isLifecycle =
      (chunks5 initOrder.reverse).map
        (List.filter (fun name => hasComp name && isLifecycle name)) := by
    unfold stopSchedule
    rw [chunks5_eq_ranges initOrder.reverse.length initOrder.reverse (le_refl _)]
    rw [List.map_map, List.length_reverse]
    refine List.map_congr_left ?_
    intro b hb
    have hblt : 5 * b < initOrder.length := by
      have := List.mem_range.mp hb
      omega
    rw [stopBatchNames_as_chunk initOrder hasComp isLifecycle b hblt]
    rfl
  have hflat : (stopSchedule initOrder hasComp isLifecycle).flatten =
      initOrder.reverse.filter (fun name => hasComp name && isLifecycle name) := by
    rw [hmain, ← List.filter_flatten,
      chunks5_flatten initOrder.reverse.length initOrder.reverse (le_refl _)]
  refine ⟨hmain, ?_, hflat, ?_⟩
  · intro batch hbatch
    rw [hmain] at hbatch
    obtain ⟨c, hc, rfl⟩ := List.mem_map.mp hbatch
    calc (c.filter _).length ≤ c.length := List.length_filter_le _ c
    _ ≤ 5 := chunks5_length_le initOrder.reverse c hc
  · intro panics
    unfold stopEvents
    rw [List.map_map]
    simp only [Function.comp_def]
    rw [List.map_id']
    exact hflat

/-- Witness for C4 at a concrete seven-component order: the batch schedule
is the five-then-two chunking of the reversed order and flattens to the
exact reversed order. -/
theorem stopAll_reverse_batches_witness :
    (stopSchedule ["a", "b", "c", "d", "e", "f", "g"]
        (fun _ => true) (fun _ => true)).flatten =
      ["g", "f", "e", "d", "c", "b", "a"] ∧
    (∀ batch ∈ stopSchedule ["a", "b", "c", "d", "e", "f", "g"]
      (fun _ => true) (fun _ => true), batch.length ≤ 5) := by
  have h := stopAll_reverse_batches ["a", "b", "c", "d", "e", "f", "g"]
    (fun _ => true) (fun _ => true)
  refine ⟨?_, h.2.1⟩
  rw [h.2.2.1]
  decide

/-- Witness for C10 at a concrete registry: checking a registered name
records it, checking an absent name leaves the context unchanged. -/
theorem hasComponent_tracks_iff_registered_witness :
    ("a" ∈ ((TrackCtx.HasComponent ⟨[("a", ⟨"a", 0⟩)]⟩ ⟨"x", []⟩ "a").1).accessedDeps ↔
      ComponentRegistry.Has ⟨[("a", ⟨"a", 0⟩)]⟩ "a" = true ∨ "a" ∈ ([] : List String)) ∧
    (ComponentRegistry.Has ⟨[("a", ⟨"a", 0⟩)]⟩ "b" = false →
      (TrackCtx.HasComponent ⟨[("a", ⟨"a", 0⟩)]⟩ ⟨"x", []⟩ "b").1 = ⟨"x", []⟩) ∧
    (TrackCtx.HasComponent ⟨[("a", ⟨"a", 0⟩)]⟩ ⟨"x", []⟩ "a").2 =
      ComponentRegistry.Has ⟨[("a", ⟨"a", 0⟩)]⟩ "a" :=
  ⟨(hasComponent_tracks_iff_registered ⟨[("a", ⟨"a", 0⟩)]⟩ ⟨"x", []⟩ "a").1,
   (hasComponent_tracks_iff_registered ⟨[("a", ⟨"a", 0⟩)]⟩ ⟨"x", []⟩ "b").2.1,
   (hasComponent_tracks_iff_registered ⟨[("a", ⟨"a", 0⟩)]⟩ ⟨"x", []⟩ "a").2.2⟩

/-- C6: a by-name lookup of an unregistered name during discovery reports no
error to the resolver and still records the name as a dependency (the
tracking context answers `.ok none`, the Go `nil, nil`); if after discovery
a recorded dependency has no registered component, `ValidateDependencies`
fails with `ComponentNotFound`; and `container.New` runs that validation
before the initializer, so the failure aborts startup with no component
initialized. -/
theorem missing_dep_swallowed_then_validated (reg : ComponentRegistry) (a : TrackCtx)
    (n : String) (hself : n ≠ a.componentName) (hmiss : reg.Has n = false) :
    a.GetComponentByName reg n =
      ({ a with accessedDeps := insertName n a.accessedDeps }, .ok none) ∧
    n ∈ ((a.GetComponentByName reg n).1).accessedDeps ∧
    (∀ (hasComp : String → Bool) (g : DepMap),
      (∃ entry ∈ g, ∃ d ∈ entry.2, hasComp d = false) →
      ∃ d, validateDeps hasComp g = some (.componentNotFound d) ∧ hasComp d = false) ∧
    (∀ (hasComp : String → Bool) (g : DepMap) (regNames : List String)
        (getDeps : String → List String) (fuel : Nat) (e : GoErr),
      validateDeps hasComp g = some e →
      startupAfterDiscovery hasComp g regNames getDeps fuel = ([], some e)) := by
  have hlook : reg.lookup n = none := by
    unfold ComponentRegistry.Has at hmiss
    exact Option.not_isSome_iff_eq_none.mp (by simp [hmiss])
  have hget : a.GetComponentByName reg n =
      ({ a with accessedDeps := insertName n a.accessedDeps }, .ok none) := by
    unfold TrackCtx.GetComponentByName
    rw [if_neg hself]
    simp only [ComponentRegistry.Get, hlook]
  refine ⟨hget, ?_, ?_, ?_⟩
  · rw [hget]
    exact (mem_insertName n n a.accessedDeps).mpr (Or.inl rfl)
  · intro hasComp g
    induction g with
    | nil => rintro ⟨entry, hentry, _⟩; exact absurd hentry (List.not_mem_nil entry)
    | cons head rest ih =>
      rintro ⟨entry, hentry, d, hd, hdmiss⟩
      unfold validateDeps
      match hfind : head.2.find? (fun x => ! hasComp x) with
      | some d0 =>
        refine ⟨d0, rfl, ?_⟩
        have := List.find?_some hfind
        simpa using this
      | none =>
        rcases List.mem_cons.mp hentry with rfl | hrest
        · exfalso
          have := List.find?_eq_none.mp hfind d hd
          simp [hdmiss] at this
        · exact ih ⟨entry, hrest, d, hd, hdmiss⟩
  · intro hasComp g regNames getDeps fuel e hval
    unfold startupAfterDiscovery
    rw [hval]

/-- Witness for C6: a single component `x` whose discovery accessed the
unregistered name `missing`. -/
theorem missing_dep_swallowed_then_validated_witness :
    TrackCtx.GetComponentByName ⟨[("x", ⟨"x", 0⟩)]⟩ ⟨"x", []⟩ "missing" =
      (⟨"x", ["missing"]⟩, .ok none) ∧
    (∃ d, validateDeps (fun nm => nm = "x") [("x", ["missing"])] =
      some (.componentNotFound d) ∧ (fun nm : String => decide (nm = "x")) d = false) ∧
    startupAfterDiscovery (fun nm => nm = "x") [("x", ["missing"])] ["x"]
      (fun _ => []) 5 = ([], some (.componentNotFound "missing")) := by
  have h := missing_dep_swallowed_then_validated ⟨[("x", ⟨"x", 0⟩)]⟩ ⟨"x", []⟩ "missing"
    (by decide) (by decide)
  refine ⟨?_, ?_, ?_⟩
  · rw [h.1]
    rfl
  · exact h.2.2.1 (fun nm => nm = "x") [("x", ["missing"])]
      ⟨("x", ["missing"]), by decide, "missing", by decide, by decide⟩
  · exact h.2.2.2 (fun nm => nm = "x") [("x", ["missing"])] ["x"] (fun _ => []) 5
      (.componentNotFound "missing") (by decide)

/-- C3 counterexample: a single component `a` whose initializer looks itself
up by name.  The claim says dependency discovery fails with a
`CircularDependency` error reporting `[a, a]`; in fact `DiscoverDependencies`
succeeds (the lookup returns the cycle error to the initializer, but
`discoverComponentDependencies` discards the initializer's outcome, so no
error reaches the resolver and the discovered edge set is empty). -/
theorem self_lookup_discovery_succeeds :
    discoverAll (discoverComponentDeps (fun t => "ptr " ++ t) (fun _ _ => false)
        ⟨[("a", ⟨"a", 0⟩)]⟩ [("a", "Ta")] (fun _ => [.byName "a"]))
      ["a"] [] = .ok [("a", [])] := by
  rfl

/-- C3 amended: a component's self-lookup during discovery fails at the
lookup itself — by name, or by type when the matching component is the
component being discovered — with a `CircularDependency` error reporting the
two-element cycle `[name, name]`, and the self-access is not recorded as a
dependency; but the discovery pass ignores initializer errors, so
`DiscoverDependencies` itself completes successfully for components whose
initializers only look themselves up by name. -/
theorem self_lookup_fails_lookup_not_discovery :
    (∀ (reg : ComponentRegistry) (a : TrackCtx) (name : String),
      name = a.componentName →
      a.GetComponentByName reg name = (a, .error (.circularDependency [name, name]))) ∧
    (∀ (ptrTo : Ty → Ty) (assignable : Ty → Ty → Bool) (comps : TypedComps)
        (a : TrackCtx) (elemType : Ty) (p : String × Ty),
      comps.find? (fun q => exactTypeMatch ptrTo q.2 elemType) = some p →
      p.1 = a.componentName →
      TrackCtx.GetComponent ptrTo assignable comps a elemType =
        (a, .error (.circularDependency [p.1, p.1]))) ∧
    (∀ (ptrTo : Ty → Ty) (assignable : Ty → Ty → Bool) (reg : ComponentRegistry)
        (typed : TypedComps) (order : List String) (inits : String → List Access),
      (∀ nm ∈ order, inits nm = [Access.byName nm]) →
      (∀ nm ∈ order, reg.Has nm = true) →
      discoverAll (discoverComponentDeps ptrTo assignable reg typed inits) order [] =
        .ok (order.map (fun nm => (nm, [])))) := by
  refine ⟨?_, ?_, ?_⟩
  · intro reg a name hself
    unfold TrackCtx.GetComponentByName
    rw [if_pos hself]
  · intro ptrTo assignable comps a elemType p hfind hself
    simp [TrackCtx.GetComponent, hfind, hself]
  · intro ptrTo assignable reg typed order inits hinit hreg
    have hone : ∀ nm ∈ order,
        discoverComponentDeps ptrTo assignable reg typed inits nm = .ok [] := by
      intro nm hnm
      unfold discoverComponentDeps
      obtain ⟨comp, hcomp⟩ := Option.isSome_iff_exists.mp (hreg nm hnm)
      rw [show reg.Get nm = .ok comp from by unfold ComponentRegistry.Get; rw [hcomp]]
      rw [hinit nm hnm]
      unfold runInitTracked
      simp only [List.foldl_cons, List.foldl_nil]
      rw [show (TrackCtx.GetComponentByName reg ⟨nm, []⟩ nm).1 = ⟨nm, []⟩ from by
        unfold TrackCtx.GetComponentByName
        rw [if_pos rfl]]
    have main : ∀ (os : List String) (g : DepMap),
        (∀ nm ∈ os, discoverComponentDeps ptrTo assignable reg typed inits nm = .ok []) →
        discoverAll (discoverComponentDeps ptrTo assignable reg typed inits) os g =
          .ok (g ++ os.map (fun nm => (nm, ([] : List String)))) := by
      intro os
      induction os with
      | nil =>
        intro g _
        simp [discoverAll]
      | cons nm rest ih =>
        intro g hos
        unfold discoverAll
        rw [hos nm (List.mem_cons_self nm rest)]
        simp only []
        rw [show checkDeps (g ++ [(nm, [])]) (dfsFuel (g ++ [(nm, [])])) nm [] = none from rfl]
        rw [ih (g ++ [(nm, [])]) (fun x hx => hos x (List.mem_cons_of_mem nm hx))]
        simp
    have := main order [] hone
    simpa using this

/-- Witness for the amended C3: a two-component registry where component `a`
looks itself up by name; the lookup fails with the `[a, a]` cycle and leaves
the tracking context unchanged, while discovery of the whole registry
succeeds. -/
theorem self_lookup_fails_lookup_not_discovery_witness :
    TrackCtx.GetComponentByName ⟨[("a", ⟨"a", 0⟩)]⟩ ⟨"a", []⟩ "a" =
      (⟨"a", []⟩, .error (.circularDependency ["a", "a"])) ∧
    TrackCtx.GetComponent (fun t => "ptr " ++ t) (fun _ _ => false)
      [("a", "ptr Ta")] ⟨"a", []⟩ "Ta" =
      (⟨"a", []⟩, .error (.circularDependency ["a", "a"])) ∧
    discoverAll (discoverComponentDeps (fun t => "ptr " ++ t) (fun _ _ => false)
        ⟨[("a", ⟨"a", 0⟩), ("b", ⟨"b", 1⟩)]⟩ [("a", "ptr Ta"), ("b", "ptr Tb")]
        (fun nm => [Access.byName nm]))
      ["a", "b"] [] = .ok [("a", []), ("b", [])] := by
  have h := self_lookup_fails_lookup_not_discovery
  refine ⟨h.1 ⟨[("a", ⟨"a", 0⟩)]⟩ ⟨"a", []⟩ "a" rfl, ?_, ?_⟩
  · exact h.2.1 (fun t => "ptr " ++ t) (fun _ _ => false) [("a", "ptr Ta")]
      ⟨"a", []⟩ "Ta" ("a", "ptr Ta") (by rfl) rfl
  · have := h.2.2 (fun t => "ptr " ++ t) (fun _ _ => false)
      ⟨[("a", ⟨"a", 0⟩), ("b", ⟨"b", 1⟩)]⟩ [("a", "ptr Ta"), ("b", "ptr Tb")]
      ["a", "b"] (fun nm => [Access.byName nm])
      (fun _ _ => rfl) (by decide)
    simpa using this

theorem initialized_mono (reg : List String) (getDeps : String → List String)
    {st st1 : InitState} (h : InitInv reg getDeps st) (h1 : InitInv reg getDeps st1)
    (happ : ∃ t, st1.initOrder = st.initOrder ++ t) :
    ∀ n ∈ st.initialized, n ∈ st1.initialized := by
  intro n hn
  obtain ⟨t, ht⟩ := happ
  refine (h1.2.1 n).mpr ?_
  rw [ht]
  exact List.mem_append_left t ((h.2.1 n).mp hn)

theorem initDepsLoop_ok (reg : List String) (getDeps : String → List String) (fuel : Nat)
    (IH : InitCompPost reg getDeps fuel) : InitLoopPost reg getDeps fuel := by
  intro ds
  induction ds with
  | nil =>
    intro name visited path st visited1 st1 hinv heq
    rw [initDepsLoop] at heq
    simp only [Prod.mk.injEq] at heq
    obtain ⟨rfl, rfl, -⟩ := heq
    exact ⟨hinv, rfl, by simp, ⟨[], by simp⟩, fun n hn => Or.inl hn⟩
  | cons d ds ihds =>
    intro name visited path st visited1 st1 hinv heq
    rw [initDepsLoop] at heq
    by_cases hd : d = name
    · rw [if_pos hd] at heq
      obtain ⟨hinv1, hv, hds, happ, hpres⟩ := ihds name visited path st visited1 st1 hinv heq
      refine ⟨hinv1, hv, ?_, happ, hpres⟩
      intro d2 hd2 hne
      rcases List.mem_cons.mp hd2 with rfl | h2
      · exact absurd hd hne
      · exact hds d2 h2 hne
    · rw [if_neg hd] at heq
      rcases hcall : initComponent reg getDeps fuel d visited path st with ⟨va, sta, eo⟩
      rw [hcall] at heq
      match eo with
      | some e => simp at heq
      | none =>
        simp only [] at heq
        obtain ⟨hinva, hva, hdmem, happa, hpresa⟩ :=
          IH d visited path st va sta hinv hcall
        rw [hva] at heq
        obtain ⟨hinv1, hv1, hds1, happ1, hpres1⟩ :=
          ihds name visited path sta visited1 st1 hinva heq
        refine ⟨hinv1, hv1, ?_, ?_, ?_⟩
        · intro d2 hd2 hne
          rcases List.mem_cons.mp hd2 with rfl | h2
          · exact initialized_mono reg getDeps hinva hinv1 happ1 d2 hdmem
          · exact hds1 d2 h2 hne
        · obtain ⟨t1, ht1⟩ := happa
          obtain ⟨t2, ht2⟩ := happ1
          exact ⟨t1 ++ t2, by rw [ht2, ht1, List.append_assoc]⟩
        · intro n hn
          rcases hpres1 n hn with h1 | h1
          · exact hpresa n h1
          · exact Or.inr h1

theorem initComponent_ok (reg : List String) (getDeps : String → List String) :
    ∀ fuel, InitCompPost reg getDeps fuel := by
  intro fuel
  induction fuel with
  | zero =>
    intro name visited path st visited1 st1 _ heq
    rw [initComponent] at heq
    simp at heq
  | succ fuel ih =>
    have loopIH := initDepsLoop_ok reg getDeps fuel ih
    intro name visited path st visited1 st1 hinv heq
    rw [initComponent] at heq
    by_cases h1 : name ∈ st.initialized
    · rw [if_pos h1] at heq
      simp only [Prod.mk.injEq] at heq
      obtain ⟨rfl, rfl, -⟩ := heq
      exact ⟨hinv, rfl, h1, ⟨[], by simp⟩, fun n hn => Or.inl hn⟩
    · rw [if_neg h1] at heq
      by_cases h2 : name ∈ visited
      · rw [if_pos h2] at heq
        simp at heq
      · rw [if_neg h2] at heq
        by_cases h3 : name ∈ reg
        · rw [if_neg (not_not_intro h3)] at heq
          rcases hloop : initDepsLoop reg getDeps fuel name (getDeps name)
            (name :: visited) (path ++ [name]) st with ⟨v2, st2, eo⟩
          rw [hloop] at heq
          match eo with
          | some e => simp at heq
          | none =>
            simp only [Prod.mk.injEq] at heq
            obtain ⟨rfl, rfl, -⟩ := heq
            obtain ⟨hinv2, hv2, hdeps, happ2, hpres2⟩ :=
              loopIH (getDeps name) name (name :: visited) (path ++ [name]) st
                v2 st2 hinv hloop
            subst hv2
            have hnameNew : name ∉ st2.initialized := by
              intro hmem
              rcases hpres2 name hmem with hc | hc
              · exact h1 hc
              · exact hc (List.mem_cons_self name visited)
            have hnameOrd : name ∉ st2.initOrder :=
              fun hc => hnameNew ((hinv2.2.1 name).mpr hc)
            refine ⟨⟨?_, ?_, ?_, ?_⟩, List.erase_cons_head name visited, ?_, ?_, ?_⟩
            · rw [List.nodup_append_comm]
              exact List.nodup_cons.mpr ⟨hnameOrd, hinv2.1⟩
            · intro n
              simp only [List.mem_cons, List.mem_append, List.mem_singleton,
                hinv2.2.1 n]
              tauto
            · intro n hn
              rcases List.mem_append.mp hn with hc | hc
              · exact hinv2.2.2.1 n hc
              · exact List.mem_singleton.mp hc ▸ h3
            · intro x hx d hd hne
              rcases List.mem_append.mp hx with hcx | hcx
              · have hord := hinv2.2.2.2 x hcx d hd hne
                have hxlt : st2.initOrder.indexOf x < st2.initOrder.length :=
                  List.indexOf_lt_length.mpr hcx
                have hdmem : d ∈ st2.initOrder :=
                  List.indexOf_lt_length.mp (lt_trans hord hxlt)
                rw [List.indexOf_append_of_mem hdmem, List.indexOf_append_of_mem hcx]
                exact hord
              · have hx' : x = name := List.mem_singleton.mp hcx
                subst hx'
                have hdin : d ∈ st2.initialized := hdeps d hd hne
                have hdord : d ∈ st2.initOrder := (hinv2.2.1 d).mp hdin
                rw [List.indexOf_append_of_mem hdord,
                  List.indexOf_append_of_not_mem hnameOrd]
                simp only [List.indexOf_cons_self, Nat.add_zero]
                exact List.indexOf_lt_length.mpr hdord
            · exact List.mem_cons_self name st2.initialized
            · obtain ⟨t, ht⟩ := happ2
              exact ⟨t ++ [name], by rw [ht, List.append_assoc]⟩
            · intro n hn
              rcases List.mem_cons.mp hn with rfl | hc
              · exact Or.inr h2
              · rcases hpres2 n hc with hcc | hcc
                · exact Or.inl hcc
                · exact Or.inr (fun hv => hcc (List.mem_cons_of_mem name hv))
        · rw [if_pos h3] at heq
          simp at heq

theorem initAll_ok (reg : List String) (getDeps : String → List String) (fuel : Nat) :
    ∀ (names : List String) (st st1 : InitState), InitInv reg getDeps st →
      initAll reg getDeps fuel names st = (st1, none) →
      InitInv reg getDeps st1 ∧ (∀ n ∈ names, n ∈ st1.initialized) ∧
      (∃ t, st1.initOrder = st.initOrder ++ t) := by
  intro names
  induction names with
  | nil =>
    intro st st1 hinv heq
    rw [initAll] at heq
    simp only [Prod.mk.injEq] at heq
    obtain ⟨rfl, -⟩ := heq
    exact ⟨hinv, by simp, ⟨[], by simp⟩⟩
  | cons name rest ih =>
    intro st st1 hinv heq
    rw [initAll] at heq
    by_cases h1 : name ∈ st.initialized
    · rw [if_pos h1] at heq
      obtain ⟨hinv1, hrest, happ⟩ := ih st st1 hinv heq
      refine ⟨hinv1, ?_, happ⟩
      intro n hn
      rcases List.mem_cons.mp hn with rfl | hc
      · exact initialized_mono reg getDeps hinv hinv1 happ n h1
      · exact hrest n hc
    · rw [if_neg h1] at heq
      rcases hcall : initComponent reg getDeps fuel name [] [] st with ⟨va, sta, eo⟩
      rw [hcall] at heq
      match eo with
      | some e => simp at heq
      | none =>
        simp only [] at heq
        obtain ⟨hinva, -, hnamein, happa, -⟩ :=
          initComponent_ok reg getDeps fuel name [] [] st va sta hinv hcall
        obtain ⟨hinv1, hrest, happ1⟩ := ih sta st1 hinva heq
        refine ⟨hinv1, ?_, ?_⟩
        · intro n hn
          rcases List.mem_cons.mp hn with rfl | hc
          · exact initialized_mono reg getDeps hinva hinv1 happ1 n hnamein
          · exact hrest n hc
        · obtain ⟨t1, ht1⟩ := happa
          obtain ⟨t2, ht2⟩ := happ1
          exact ⟨t1 ++ t2, by rw [ht2, ht1, List.append_assoc]⟩

/-- C1: a successful `InitializeAll` run records each registered component in
the initialization order exactly once — the order is duplicate-free and
contains exactly the registered names — and for every component `x` and
every discovered dependency `d` of `x` with `d ≠ x`, `d` appears strictly
before `x` in the recorded order.  (Success of the run subsumes the claim's
acyclicity assumption: a discovered cycle makes `InitializeAll` fail.) -/
theorem initAll_records_topological_order (reg : List String)
    (getDeps : String → List String) (fuel : Nat) (st : InitState)
    (hok : runInitAll reg getDeps fuel = (st, none)) :
    st.initOrder.Nodup ∧
    (∀ n, n ∈ st.initOrder ↔ n ∈ reg) ∧
    (∀ n ∈ reg, st.initOrder.count n = 1) ∧
    (∀ x ∈ st.initOrder, ∀ d ∈ getDeps x, d ≠ x →
      st.initOrder.indexOf d < st.initOrder.indexOf x) := by
  have hinv0 : InitInv reg getDeps ⟨[], []⟩ := by
    refine ⟨List.nodup_nil, ?_, ?_, ?_⟩ <;> simp
  obtain ⟨hinv, hcov, -⟩ := initAll_ok reg getDeps fuel reg ⟨[], []⟩ st hinv0 hok
  have hiff : ∀ n, n ∈ st.initOrder ↔ n ∈ reg := by
    intro n
    constructor
    · exact hinv.2.2.1 n
    · intro hn
      exact (hinv.2.1 n).mp (hcov n hn)
  refine ⟨hinv.1, hiff, ?_, hinv.2.2.2⟩
  intro n hn
  exact List.count_eq_one_of_mem hinv.1 ((hiff n).mpr hn)

/-- Witness for C1: a two-component registry where `b` depends on `a`; the
recorded order is `[a, b]`. -/
theorem initAll_records_topological_order_witness :
    runInitAll ["b", "a"] (fun n => if n = "b" then ["a"] else []) 5 =
      (⟨["b", "a"], ["a", "b"]⟩, none) ∧
    (∀ n, n ∈ (InitState.mk ["b", "a"] ["a", "b"]).initOrder ↔ n ∈ ["b", "a"]) ∧
    ((InitState.mk ["b", "a"] ["a", "b"]).initOrder.indexOf "a" <
      (InitState.mk ["b", "a"] ["a", "b"]).initOrder.indexOf "b") := by
  have hok : runInitAll ["b", "a"] (fun n => if n = "b" then ["a"] else []) 5 =
      (⟨["b", "a"], ["a", "b"]⟩, none) := by
    simp [runInitAll, initAll, initComponent, initDepsLoop]
  have h := initAll_records_topological_order ["b", "a"]
    (fun n => if n = "b" then ["a"] else []) 5 ⟨["b", "a"], ["a", "b"]⟩ hok
  refine ⟨hok, h.2.1, ?_⟩
  have := h.2.2.2 "b" (by simp) "a" (by simp) (by decide)
  exact this

theorem getLast?_cons_ne {α : Type} (x : α) (l : List α) (h : l ≠ []) :
    (x :: l).getLast? = l.getLast? := by
  rcases List.eq_nil_or_concat l with rfl | ⟨t, a, rfl⟩
  · exact absurd rfl h
  · simp only [List.concat_eq_append]
    rw [show x :: (t ++ [a]) = (x :: t) ++ [a] from rfl, List.getLast?_concat,
      List.getLast?_concat]

theorem head?_append_ne {α : Type} (l1 l2 : List α) (h : l1 ≠ []) :
    (l1 ++ l2).head? = l1.head? := by
  cases l1 with
  | nil => exact absurd rfl h
  | cons a t => rfl

theorem depsOf_find?_some (g : DepMap) (u : String) (q : String × List String)
    (h : g.find? (fun p => p.1 = u) = some q) : depsOf g u = q.2 := by
  unfold depsOf
  rw [h]

theorem depsOf_find?_none (g : DepMap) (u : String)
    (h : g.find? (fun p => p.1 = u) = none) : depsOf g u = [] := by
  unfold depsOf
  rw [h]

theorem mem_verts_of_mem_depsOf (g : DepMap) (u v : String) (hv : v ∈ depsOf g u) :
    v ∈ vertsOf g := by
  cases hfind : g.find? (fun p => p.1 = u) with
  | none =>
    rw [depsOf_find?_none g u hfind] at hv
    exact absurd hv (List.not_mem_nil v)
  | some q =>
    rw [depsOf_find?_some g u q hfind] at hv
    refine List.mem_append_right _ (List.mem_flatten.mpr ⟨q.2, ?_, hv⟩)
    exact List.mem_map.mpr ⟨q, List.mem_of_find?_eq_some hfind, rfl⟩

theorem depsOf_imp_dc (dc : String → List String) (g : DepMap)
    (hst : ∀ q ∈ g, q.2 = dc q.1) (u v : String) (hv : v ∈ depsOf g u) : v ∈ dc u := by
  cases hfind : g.find? (fun p => p.1 = u) with
  | none =>
    rw [depsOf_find?_none g u hfind] at hv
    exact absurd hv (List.not_mem_nil v)
  | some q =>
    rw [depsOf_find?_some g u q hfind] at hv
    have h1 : q.1 = u := by simpa using List.find?_some hfind
    rw [hst q (List.mem_of_find?_eq_some hfind), h1] at hv
    exact hv

theorem depsOf_eq_dc_of_key (dc : String → List String) (g : DepMap)
    (hst : ∀ q ∈ g, q.2 = dc q.1) (u : String)
    (hu : u ∈ g.map (fun p => p.1)) : depsOf g u = dc u := by
  cases hfind : g.find? (fun p => p.1 = u) with
  | none =>
    exfalso
    obtain ⟨q, hq, hq1⟩ := List.mem_map.mp hu
    have := List.find?_eq_none.mp hfind q hq
    simp [hq1] at this
  | some q =>
    rw [depsOf_find?_some g u q hfind]
    have h1 : q.1 = u := by simpa using List.find?_some hfind
    rw [hst q (List.mem_of_find?_eq_some hfind), h1]

theorem chain'_mono_mem {R S : String → String → Prop} :
    ∀ (l : List String), List.Chain' R l →
      (∀ u ∈ l, ∀ v ∈ l, R u v → S u v) → List.Chain' S l
  | [], _, _ => List.chain'_nil
  | [_], _, _ => List.chain'_singleton _
  | a :: b :: t, hc, himp => by
    rw [List.chain'_cons] at hc ⊢
    refine ⟨himp a (by simp) b (by simp) hc.1, ?_⟩
    exact chain'_mono_mem (b :: t) hc.2
      (fun u hu v hv h => himp u (List.mem_cons_of_mem a hu) v (List.mem_cons_of_mem a hv) h)

theorem walk_end_mem (g : DepMap) (v1 : List String)
    (hclose : ∀ x ∈ v1, ∀ d ∈ depsOf g x, d ∈ v1) :
    ∀ (walk : List String) (x y : String),
      List.Chain' (fun u v => v ∈ depsOf g u) (x :: walk) →
      (x :: walk).getLast? = some y → x ∈ v1 → y ∈ v1 := by
  intro walk
  induction walk with
  | nil =>
    intro x y _ hlast hx
    simp only [List.getLast?_singleton, Option.some.injEq] at hlast
    exact hlast ▸ hx
  | cons z rest ih =>
    intro x y hchain hlast hx
    rw [List.chain'_cons] at hchain
    have hz : z ∈ v1 := hclose x hx z hchain.1
    refine ih z y hchain.2 ?_ hz
    rw [getLast?_cons_ne x (z :: rest) (by simp)] at hlast
    exact hlast

theorem detectLoop_some_sound (g : DepMap) (fuel : Nat)
    (IH : ∀ source target visited path p v1,
      detectCycle g fuel source target visited path = (some p, v1) →
      List.Chain' (fun u v => v ∈ depsOf g u) (path ++ [target]) → path ≠ [] →
      List.Chain' (fun u v => v ∈ depsOf g u) p ∧ p.head? = path.head? ∧
        p.getLast? = some source ∧ path.length + 1 ≤ p.length) :
    ∀ (ds : List String) source visited path p v1,
      detectLoop g fuel source ds visited path = (some p, v1) →
      (∀ d ∈ ds, List.Chain' (fun u v => v ∈ depsOf g u) (path ++ [d])) → path ≠ [] →
      List.Chain' (fun u v => v ∈ depsOf g u) p ∧ p.head? = path.head? ∧
        p.getLast? = some source ∧ path.length + 1 ≤ p.length := by
  intro ds
  induction ds with
  | nil =>
    intro source visited path p v1 heq _ _
    rw [detectLoop] at heq
    simp at heq
  | cons d ds ihds =>
    intro source visited path p v1 heq hch hpne
    rw [detectLoop] at heq
    rcases hcall : detectCycle g fuel source d visited path with ⟨res, va⟩
    rw [hcall] at heq
    match res with
    | some p0 =>
      simp only [Prod.mk.injEq, Option.some.injEq] at heq
      obtain ⟨rfl, rfl⟩ := heq
      exact IH source d visited path p0 va hcall (hch d (List.mem_cons_self d ds)) hpne
    | none =>
      simp only [] at heq
      exact ihds source va path p v1 heq
        (fun d2 h2 => hch d2 (List.mem_cons_of_mem d h2)) hpne

theorem detectCycle_some_sound (g : DepMap) :
    ∀ (fuel : Nat) source target visited path p v1,
      detectCycle g fuel source target visited path = (some p, v1) →
      List.Chain' (fun u v => v ∈ depsOf g u) (path ++ [target]) → path ≠ [] →
      List.Chain' (fun u v => v ∈ depsOf g u) p ∧ p.head? = path.head? ∧
        p.getLast? = some source ∧ path.length + 1 ≤ p.length := by
  intro fuel
  induction fuel with
  | zero =>
    intro source target visited path p v1 heq _ _
    rw [detectCycle] at heq
    simp at heq
  | succ fuel ih =>
    intro source target visited path p v1 heq hch hpne
    rw [detectCycle] at heq
    by_cases h1 : source = target
    · rw [if_pos h1] at heq
      simp only [Prod.mk.injEq, Option.some.injEq] at heq
      obtain ⟨rfl, rfl⟩ : path ++ [target] = p ∧ visited = v1 := heq
      refine ⟨hch, head?_append_ne path [target] hpne, ?_, by simp⟩
      rw [List.getLast?_concat, h1]
    · rw [if_neg h1] at heq
      by_cases h2 : target ∈ visited
      · rw [if_pos h2] at heq
        simp at heq
      · rw [if_neg h2] at heq
        have hch2 : ∀ d ∈ depsOf g target,
            List.Chain' (fun u v => v ∈ depsOf g u) ((path ++ [target]) ++ [d]) := by
          intro d hd
          rw [List.chain'_append]
          refine ⟨hch, List.chain'_singleton d, ?_⟩
          intro x hx y hy
          rw [List.getLast?_concat] at hx
          simp only [List.head?_cons, Option.mem_def, Option.some.injEq] at hx hy
          subst hx
          subst hy
          exact hd
        obtain ⟨hc, hh, hl, hlen⟩ := detectLoop_some_sound g fuel ih
          (depsOf g target) source (target :: visited) (path ++ [target]) p v1
          heq hch2 (by simp)
        refine ⟨hc, ?_, hl, ?_⟩
        · rw [hh, head?_append_ne path [target] hpne]
        · have hplen : (path ++ [target]).length = path.length + 1 := by simp
          omega

theorem detectLoop_none_post (g : DepMap) (U : List String) (fuel : Nat)
    (IH : ∀ source target visited path v1,
      detectCycle g fuel source target visited path = (none, v1) →
      visited.Nodup → (∀ x ∈ visited, x ∈ U) → target ∈ U →
      U.length - visited.length < fuel →
      (∀ x ∈ visited, x ∈ v1) ∧ target ∈ v1 ∧ v1.Nodup ∧ (∀ x ∈ v1, x ∈ U) ∧
        (source ∉ visited → source ∉ v1) ∧
        (∀ x ∈ v1, x ∉ visited → ∀ d ∈ depsOf g x, d ∈ v1)) :
    ∀ (ds : List String) source visited path v1,
      detectLoop g fuel source ds visited path = (none, v1) →
      visited.Nodup → (∀ x ∈ visited, x ∈ U) → (∀ d ∈ ds, d ∈ U) →
      U.length - visited.length < fuel →
      (∀ x ∈ visited, x ∈ v1) ∧ (∀ d ∈ ds, d ∈ v1) ∧ v1.Nodup ∧ (∀ x ∈ v1, x ∈ U) ∧
        (source ∉ visited → source ∉ v1) ∧
        (∀ x ∈ v1, x ∉ visited → ∀ d ∈ depsOf g x, d ∈ v1) := by
  intro ds
  induction ds with
  | nil =>
    intro source visited path v1 heq hnd hvU _ _
    rw [detectLoop] at heq
    simp only [Prod.mk.injEq] at heq
    obtain ⟨-, rfl⟩ := heq
    exact ⟨fun x hx => hx, by simp, hnd, hvU, fun h => h, fun x hx hnx => absurd hx hnx⟩
  | cons d ds ihds =>
    intro source visited path v1 heq hnd hvU hdsU hfuel
    rw [detectLoop] at heq
    rcases hcall : detectCycle g fuel source d visited path with ⟨res, va⟩
    rw [hcall] at heq
    match res with
    | some p0 => simp at heq
    | none =>
      simp only [] at heq
      obtain ⟨hsub_a, hd_a, hnd_a, hU_a, hsrc_a, hcl_a⟩ :=
        IH source d visited path va hcall hnd hvU
          (hdsU d (List.mem_cons_self d ds)) hfuel
      have hlen_a : visited.length ≤ va.length :=
        (hnd.subperm (fun x hx => hsub_a x hx)).length_le
      obtain ⟨hsub_b, hds_b, hnd_b, hU_b, hsrc_b, hcl_b⟩ :=
        ihds source va path v1 heq hnd_a hU_a
          (fun d2 h2 => hdsU d2 (List.mem_cons_of_mem d h2)) (by omega)
      refine ⟨fun x hx => hsub_b x (hsub_a x hx), ?_, hnd_b, hU_b, ?_, ?_⟩
      · intro d2 h2
        rcases List.mem_cons.mp h2 with rfl | h3
        · exact hsub_b d2 hd_a
        · exact hds_b d2 h3
      · intro hsv
        exact hsrc_b (hsrc_a hsv)
      · intro x hx hnx
        by_cases hxa : x ∈ va
        · intro d2 hd2
          exact hsub_b d2 (hcl_a x hxa hnx d2 hd2)
        · exact hcl_b x hx hxa

theorem detectCycle_none_post (g : DepMap) (U : List String)
    (HU : ∀ u v, v ∈ depsOf g u → v ∈ U) :
    ∀ (fuel : Nat) source target visited path v1,
      detectCycle g fuel source target visited path = (none, v1) →
      visited.Nodup → (∀ x ∈ visited, x ∈ U) → target ∈ U →
      U.length - visited.length < fuel →
      (∀ x ∈ visited, x ∈ v1) ∧ target ∈ v1 ∧ v1.Nodup ∧ (∀ x ∈ v1, x ∈ U) ∧
        (source ∉ visited → source ∉ v1) ∧
        (∀ x ∈ v1, x ∉ visited → ∀ d ∈ depsOf g x, d ∈ v1) := by
  intro fuel
  induction fuel with
  | zero =>
    intro source target visited path v1 _ _ _ _ hfuel
    omega
  | succ fuel ih =>
    intro source target visited path v1 heq hnd hvU htU hfuel
    rw [detectCycle] at heq
    by_cases h1 : source = target
    · rw [if_pos h1] at heq
      simp at heq
    · rw [if_neg h1] at heq
      by_cases h2 : target ∈ visited
      · rw [if_pos h2] at heq
        simp only [Prod.mk.injEq] at heq
        obtain ⟨-, rfl⟩ := heq
        exact ⟨fun x hx => hx, h2, hnd, hvU, fun h => h, fun x hx hnx => absurd hx hnx⟩
      · rw [if_neg h2] at heq
        have hnd1 : (target :: visited).Nodup := List.nodup_cons.mpr ⟨h2, hnd⟩
        have hU1 : ∀ x ∈ target :: visited, x ∈ U := by
          intro x hx
          rcases List.mem_cons.mp hx with rfl | h3
          · exact htU
          · exact hvU x h3
        have hlen1 : (target :: visited).length ≤ U.length :=
          (hnd1.subperm (fun x hx => hU1 x hx)).length_le
        have hfuel1 : U.length - (target :: visited).length < fuel := by
          simp only [List.length_cons] at *
          omega
        obtain ⟨hsub, hds, hndb, hUb, hsrc, hcl⟩ :=
          detectLoop_none_post g U fuel ih (depsOf g target) source
            (target :: visited) (path ++ [target]) v1 heq hnd1 hU1
            (fun d hd => HU target d hd) hfuel1
        refine ⟨fun x hx => hsub x (List.mem_cons_of_mem target hx),
          hsub target (List.mem_cons_self target visited), hndb, hUb, ?_, ?_⟩
        · intro hsv
          refine hsrc ?_
          intro hc
          rcases List.mem_cons.mp hc with h3 | h3
          · exact h1 h3
          · exact hsv h3
        · intro x hx hnx
          by_cases hxt : x = target
          · subst hxt
            intro d2 hd2
            exact hds d2 hd2
          · refine hcl x hx ?_
            intro hc
            rcases List.mem_cons.mp hc with h4 | h4
            · exact hxt h4
            · exact hnx h4

theorem closed_walk_rotate {R : String → String → Prop}
    (w w2 : String) (mid : List String)
    (hchain : List.Chain' R (w :: mid ++ [w]))
    (hmem : w2 ∈ w :: mid) :
    ∃ rest : List String,
      List.Chain' R (w2 :: rest ++ [w2]) ∧ (w2 :: rest).Perm (w :: mid) := by
  obtain ⟨A, B, hAB⟩ := List.append_of_mem hmem
  have hchain2 : List.Chain' R (A ++ (w2 :: (B ++ [w]))) := by
    have h : (w :: mid) ++ [w] = A ++ (w2 :: (B ++ [w])) := by
      rw [hAB, List.append_assoc, List.cons_append]
    rw [← h]
    exact hchain
  obtain ⟨hcA, hcTail, hlink1⟩ := List.chain'_append.mp hchain2
  have hcTail2 : List.Chain' R ((w2 :: B) ++ [w]) := by
    rw [List.cons_append]
    exact hcTail
  obtain ⟨hcwB, -, hlink2⟩ := List.chain'_append.mp hcTail2
  have hlink1w : ∀ x ∈ A.getLast?, R x w2 :=
    fun x hx => hlink1 x hx w2 (by simp)
  have hlink2w : ∀ x ∈ (w2 :: B).getLast?, R x w :=
    fun x hx => hlink2 x hx w (by simp)
  have hhead : (A ++ [w2]).head? = some w := by
    cases A with
    | nil =>
      have hw : w = w2 := by
        have := congrArg List.head? hAB
        simpa using this
      simp [hw]
    | cons a A2 =>
      have hw : w = a := by
        have := congrArg List.head? hAB
        simpa using this
      simp [hw]
  refine ⟨B ++ A, ?_, ?_⟩
  · have hgoal : List.Chain' R ((w2 :: B) ++ (A ++ [w2])) := by
      rw [List.chain'_append]
      refine ⟨hcwB, ?_, ?_⟩
      · rw [List.chain'_append]
        refine ⟨hcA, List.chain'_singleton w2, ?_⟩
        intro x hx y hy
        simp only [List.head?_cons, Option.mem_def, Option.some.injEq] at hy
        subst hy
        exact hlink1w x hx
      · intro x hx y hy
        rw [hhead] at hy
        simp only [Option.mem_def, Option.some.injEq] at hy
        subst hy
        exact hlink2w x hx
    have heq2 : (w2 :: B) ++ (A ++ [w2]) = w2 :: (B ++ A) ++ [w2] := by
      simp [List.append_assoc]
    rw [heq2] at hgoal
    exact hgoal
  · have p1 : (w2 :: (B ++ A)).Perm (w2 :: (A ++ B)) :=
      List.Perm.cons w2 List.perm_append_comm
    have p2 : (w2 :: (A ++ B)).Perm (A ++ w2 :: B) := List.perm_middle.symm
    have p3 := p1.trans p2
    rw [← hAB] at p3
    exact p3

theorem checkDeps_some_form (g : DepMap) (fuel : Nat) (name : String) :
    ∀ (deps : List String) (e : GoErr),
      (∀ d ∈ deps, d ∈ depsOf g name) →
      checkDeps g fuel name deps = some e →
      ∃ p, e = .circularDependency p ∧
        List.Chain' (fun u v => v ∈ depsOf g u) p ∧ p.head? = some name ∧
        p.getLast? = some name ∧ 3 ≤ p.length := by
  intro deps
  induction deps with
  | nil =>
    intro e _ heq
    rw [checkDeps] at heq
    simp at heq
  | cons d ds ih =>
    intro e hmem heq
    rw [checkDeps] at heq
    by_cases hd : d = name
    · rw [if_pos hd] at heq
      exact ih e (fun x hx => hmem x (List.mem_cons_of_mem d hx)) heq
    · rw [if_neg hd] at heq
      rcases hpair : detectCycle g fuel name d [] [name] with ⟨res, va⟩
      rw [hpair] at heq
      simp only [] at heq
      match res with
      | none =>
        exact ih e (fun x hx => hmem x (List.mem_cons_of_mem d hx)) heq
      | some cycle =>
        simp only [Option.some.injEq] at heq
        match fuel with
        | 0 =>
          rw [detectCycle] at hpair
          simp at hpair
        | f + 1 =>
          rw [detectCycle] at hpair
          rw [if_neg (fun h => hd h.symm), if_neg (List.not_mem_nil d)] at hpair
          have hchainInit : ∀ d2 ∈ depsOf g d,
              List.Chain' (fun u v => v ∈ depsOf g u) (([name] ++ [d]) ++ [d2]) := by
            intro d2 hd2
            refine List.chain'_cons.mpr ⟨hmem d (List.mem_cons_self d ds), ?_⟩
            exact List.chain'_cons.mpr ⟨hd2, List.chain'_singleton d2⟩
          obtain ⟨hc, hh, hl, hlen⟩ := detectLoop_some_sound g f
            (detectCycle_some_sound g f) (depsOf g d) name (d :: []) ([name] ++ [d])
            cycle va hpair hchainInit (by simp)
          refine ⟨cycle, heq.symm, hc, ?_, hl, ?_⟩
          · rw [hh]
            rfl
          · simp only [List.length_append, List.length_singleton] at hlen
            omega

theorem checkDeps_none_detect (g : DepMap) (fuel : Nat) (name : String) :
    ∀ (deps : List String), checkDeps g fuel name deps = none →
      ∀ d ∈ deps, d ≠ name → (detectCycle g fuel name d [] [name]).1 = none := by
  intro deps
  induction deps with
  | nil =>
    intro _ d hd
    exact absurd hd (List.not_mem_nil d)
  | cons d0 ds ih =>
    intro heq d hd hne
    rw [checkDeps] at heq
    by_cases h0 : d0 = name
    · rw [if_pos h0] at heq
      rcases List.mem_cons.mp hd with rfl | hmem
      · exact absurd h0 hne
      · exact ih heq d hmem hne
    · rw [if_neg h0] at heq
      cases hres : (detectCycle g fuel name d0 [] [name]).1 with
      | some cycle =>
        rw [hres] at heq
        simp at heq
      | none =>
        rw [hres] at heq
        rcases List.mem_cons.mp hd with rfl | hmem
        · exact hres
        · exact ih heq d hmem hne

theorem discoverAll_error_form (dc : String → List String) :
    ∀ (order : List String) (g : DepMap) (e : GoErr),
      (∀ q ∈ g, q.2 = dc q.1) →
      discoverAll (fun n => .ok (dc n)) order g = .error e →
      ∃ p o, e = .circularDependency p ∧
        List.Chain' (fun u v => v ∈ dc u) p ∧ p.head? = some o ∧
        p.getLast? = some o ∧ 3 ≤ p.length := by
  intro order
  induction order with
  | nil =>
    intro g e _ heq
    rw [discoverAll] at heq
    simp at heq
  | cons name rest ih =>
    intro g e hst heq
    rw [discoverAll] at heq
    simp only [] at heq
    have hst1 : ∀ q ∈ g ++ [(name, dc name)], q.2 = dc q.1 := by
      intro q hq
      rcases List.mem_append.mp hq with h | h
      · exact hst q h
      · simp only [List.mem_singleton] at h
        rw [h]
    cases hcheck : checkDeps (g ++ [(name, dc name)])
        (dfsFuel (g ++ [(name, dc name)])) name (dc name) with
    | some e0 =>
      rw [hcheck] at heq
      simp only [Except.error.injEq] at heq
      have hmemdeps : ∀ d ∈ dc name, d ∈ depsOf (g ++ [(name, dc name)]) name := by
        rw [depsOf_eq_dc_of_key dc (g ++ [(name, dc name)]) hst1 name (by simp)]
        exact fun d hd => hd
      obtain ⟨p, hp, hc, hh, hl, hlen⟩ := checkDeps_some_form (g ++ [(name, dc name)])
        (dfsFuel (g ++ [(name, dc name)])) name (dc name) e0 hmemdeps hcheck
      refine ⟨p, name, heq ▸ hp, ?_, hh, hl, hlen⟩
      exact List.Chain'.imp
        (fun a b hb => depsOf_imp_dc dc (g ++ [(name, dc name)]) hst1 a b hb) hc
    | none =>
      rw [hcheck] at heq
      exact ih (g ++ [(name, dc name)]) e hst1 heq

theorem discoverAll_cycle_no_ok (dc : String → List String) (w : String) (mid : List String)
    (hmid : mid ≠ []) (hnd : (w :: mid).Nodup)
    (hchain : List.Chain' (fun u v => v ∈ dc u) (w :: mid ++ [w])) :
    ∀ (order : List String) (g : DepMap),
      (∀ q ∈ g, q.2 = dc q.1) →
      (∀ v ∈ w :: mid, v ∈ order ∨ v ∈ g.map (fun p => p.1)) →
      (∃ v, v ∈ w :: mid ∧ v ∉ g.map (fun p => p.1)) →
      ∀ gf, discoverAll (fun n => .ok (dc n)) order g ≠ .ok gf := by
  intro order
  induction order with
  | nil =>
    rintro g - hcov ⟨v, hv, hnv⟩ gf -
    rcases hcov v hv with h | h
    · exact absurd h (List.not_mem_nil v)
    · exact absurd h hnv
  | cons name rest ih =>
    intro g hst hcov hex gf heq
    rw [discoverAll] at heq
    simp only [] at heq
    have hst1 : ∀ q ∈ g ++ [(name, dc name)], q.2 = dc q.1 := by
      intro q hq
      rcases List.mem_append.mp hq with h | h
      · exact hst q h
      · simp only [List.mem_singleton] at h
        rw [h]
    cases hcheck : checkDeps (g ++ [(name, dc name)])
        (dfsFuel (g ++ [(name, dc name)])) name (dc name) with
    | some e0 =>
      rw [hcheck] at heq
      simp at heq
    | none =>
      rw [hcheck] at heq
      by_cases hall : ∀ v ∈ w :: mid, v ∈ (g ++ [(name, dc name)]).map (fun p => p.1)
      · exfalso
        obtain ⟨v0, hv0, hnv0⟩ := hex
        have hname : v0 = name := by
          rcases List.mem_map.mp (hall v0 hv0) with ⟨q, hq, hq1⟩
          rcases List.mem_append.mp hq with h | h
          · exact absurd (List.mem_map.mpr ⟨q, h, hq1⟩) hnv0
          · simp only [List.mem_singleton] at h
            rw [← hq1, h]
        rw [← hname] at hcheck hall hst1
        obtain ⟨rest2, hch2, hperm⟩ := closed_walk_rotate w v0 mid hchain hv0
        match hrest2 : rest2 with
        | [] =>
          have hlen : (1 : Nat) = mid.length + 1 := by simpa using hperm.length_eq
          exact hmid (List.eq_nil_of_length_eq_zero (by omega))
        | d :: rest3 =>
          have hch3 := List.chain'_cons.mp (by
            rw [show v0 :: (d :: rest3) ++ [v0] = v0 :: (d :: (rest3 ++ [v0])) from rfl]
              at hch2
            exact hch2)
          have hdedge : d ∈ dc v0 := hch3.1
          have hndrot : (v0 :: d :: rest3).Nodup := hperm.nodup_iff.mpr hnd
          have hdne : d ≠ v0 := by
            intro hcon
            have hvm : v0 ∈ d :: rest3 := by
              rw [hcon]
              exact List.mem_cons_self v0 rest3
            exact (List.nodup_cons.mp hndrot).1 hvm
          have hdet1 := checkDeps_none_detect (g ++ [(v0, dc v0)])
            (dfsFuel (g ++ [(v0, dc v0)])) v0 (dc v0) hcheck d hdedge hdne
          rcases hdetp : detectCycle (g ++ [(v0, dc v0)])
            (dfsFuel (g ++ [(v0, dc v0)])) v0 d [] [v0] with ⟨resd, vd⟩
          rw [hdetp] at hdet1
          simp only [] at hdet1
          subst hdet1
          have hdU : d ∈ vertsOf (g ++ [(v0, dc v0)]) := by
            unfold vertsOf
            refine List.mem_append_right _ (List.mem_flatten.mpr ⟨dc v0, ?_, hdedge⟩)
            exact List.mem_map.mpr ⟨(v0, dc v0), by simp, rfl⟩
          obtain ⟨-, hdv, -, -, hsrc, hclose⟩ :=
            detectCycle_none_post (g ++ [(v0, dc v0)]) (vertsOf (g ++ [(v0, dc v0)]))
              (fun u v hv => mem_verts_of_mem_depsOf _ u v hv)
              (dfsFuel (g ++ [(v0, dc v0)])) v0 d [] [v0] vd hdetp
              List.nodup_nil (by simp) hdU
              (by simp only [dfsFuel, List.length_nil]; omega)
          have hv0notin : v0 ∉ vd := hsrc (List.not_mem_nil v0)
          have hcl2 : ∀ x ∈ vd, ∀ d2 ∈ depsOf (g ++ [(v0, dc v0)]) x, d2 ∈ vd :=
            fun x hx => hclose x hx (List.not_mem_nil x)
          have hwalkmem : ∀ u ∈ d :: (rest3 ++ [v0]), u ∈ w :: mid := by
            intro u hu
            have hu2 : u ∈ v0 :: d :: rest3 := by
              rcases List.mem_cons.mp hu with rfl | hu3
              · exact List.mem_cons_of_mem v0 (List.mem_cons_self u rest3)
              · rcases List.mem_append.mp hu3 with h4 | h4
                · exact List.mem_cons_of_mem v0 (List.mem_cons_of_mem d h4)
                · simp only [List.mem_singleton] at h4
                  rw [h4]
                  exact List.mem_cons_self v0 _
            exact hperm.mem_iff.mp hu2
          have hchg1 : List.Chain' (fun u v => v ∈ depsOf (g ++ [(v0, dc v0)]) u)
              (d :: (rest3 ++ [v0])) :=
            chain'_mono_mem _ hch3.2 (fun u hu v _ hedge => by
              rw [depsOf_eq_dc_of_key dc _ hst1 u (hall u (hwalkmem u hu))]
              exact hedge)
          have hfinal := walk_end_mem (g ++ [(v0, dc v0)]) vd hcl2
            (rest3 ++ [v0]) d v0 hchg1 (by
              rw [show d :: (rest3 ++ [v0]) = (d :: rest3) ++ [v0] from rfl]
              exact List.getLast?_concat _) hdv
          exact hv0notin hfinal
      · push_neg at hall
        obtain ⟨vmiss, hvmiss, hnvmiss⟩ := hall
        refine ih (g ++ [(name, dc name)]) hst1 ?_ ⟨vmiss, hvmiss, hnvmiss⟩ gf heq
        intro v hv
        rcases hcov v hv with h | h
        · rcases List.mem_cons.mp h with rfl | h2
          · exact Or.inr (by simp)
          · exact Or.inl h2
        · refine Or.inr ?_
          rw [List.map_append]
          exact List.mem_append_left _ h

/-- C2: whenever the discovered edge sets contain a dependency cycle among
distinct components all of which the discovery pass visits — in whichever
order the registry map happens to be iterated — `DiscoverDependencies` fails
with a `CircularDependency` error, and the reported cycle path follows
discovered edges with one component (the origin, the component whose edge
check first completed a stored cycle) repeated at both ends. -/
theorem discoverAll_cycle_detected (dc : String → List String) (order : List String)
    (w : String) (mid : List String) (hmid : mid ≠ []) (hnd : (w :: mid).Nodup)
    (hchain : List.Chain' (fun u v => v ∈ dc u) (w :: mid ++ [w]))
    (hmem : ∀ v ∈ w :: mid, v ∈ order) :
    ∃ p o, discoverAll (fun n => .ok (dc n)) order [] = .error (.circularDependency p) ∧
      p.head? = some o ∧ p.getLast? = some o ∧ 3 ≤ p.length ∧
      List.Chain' (fun u v => v ∈ dc u) p := by
  cases hres : discoverAll (fun n => .ok (dc n)) order [] with
  | ok gf =>
    exact absurd hres (discoverAll_cycle_no_ok dc w mid hmid hnd hchain order []
      (by simp) (fun v hv => Or.inl (hmem v hv))
      ⟨w, List.mem_cons_self w mid, by simp⟩ gf)
  | error e =>
    obtain ⟨p, o, he, hc, hh, hl, hlen⟩ :=
      discoverAll_error_form dc order [] e (by simp) hres
    subst he
    exact ⟨p, o, rfl, hh, hl, hlen, hc⟩

/-- Witness for C2: the three-component cycle a→b→c→a discovered in the
order b, c, a. -/
theorem discoverAll_cycle_detected_witness :
    ∃ p o, discoverAll (fun n => .ok (if n = "a" then ["b"] else
        if n = "b" then ["c"] else if n = "c" then ["a"] else []))
        ["b", "c", "a"] [] = .error (.circularDependency p) ∧
      p.head? = some o ∧ p.getLast? = some o ∧ 3 ≤ p.length ∧
      List.Chain' (fun u v => v ∈ (if u = "a" then ["b"] else
        if u = "b" then ["c"] else if u = "c" then ["a"] else [])) p :=
  discoverAll_cycle_detected
    (fun n => if n = "a" then ["b"] else if n = "b" then ["c"] else
      if n = "c" then ["a"] else [])
    ["b", "c", "a"] "a" ["b", "c"] (by decide) (by decide)
    (by
      refine List.chain'_cons.mpr ⟨by decide, ?_⟩
      refine List.chain'_cons.mpr ⟨by decide, ?_⟩
      refine List.chain'_cons.mpr ⟨by decide, ?_⟩
      exact List.chain'_singleton _)
    (by decide)

end GoBoot
